import Mathlib

/-!
A shallow embedding of the feed state machine of atomail.py (mail-to-Atom
feed converter, Python 2): the datetime model, the Atom date parser, the
feed document operations, the ingestion loop and the retention trimming,
together with theorems settling the specification claims.

Python exceptions are modelled with Except Unit: a value of the form
Except.error () means the corresponding Python code raises.  Platform
functions declared external by the specification (MD5 digesting, RFC 2047
header decoding, address parsing, mail-date parsing, MIME content
extraction) are passed as explicit function arguments.
-/

namespace Atomail

/-- Model of a Python datetime value: calendar/time fields plus an optional
timezone given as whole hours (class TZ in atomail.py stores hours and
returns timedelta(hours=h) as the UTC offset).  tz = none models a naive
datetime. -/
structure DateTime where
  year : Nat
  month : Nat
  day : Nat
  hour : Nat
  minute : Nat
  second : Nat
  microsecond : Nat
  tz : Option Int
deriving DecidableEq, Repr

/-- Gregorian leap-year predicate, as in Python's calendar. -/
def isLeap (y : Nat) : Bool :=
  (y % 4 == 0 && y % 100 != 0) || y % 400 == 0

/-- Days in each month (1-based), as Python's datetime validates them. -/
def daysInMonth (y m : Nat) : Nat :=
  if m == 2 then (if isLeap y then 29 else 28)
  else if m == 4 || m == 6 || m == 9 || m == 11 then 30
  else 31

/-- Days before the first day of a month within a year (month 1-based). -/
def daysBeforeMonth (y m : Nat) : Nat :=
  (List.range (m - 1)).foldl (fun acc i => acc + daysInMonth y (i + 1)) 0

/-- Proleptic Gregorian ordinal of a date, with 0001-01-01 mapping to 1
(Python's date.toordinal). -/
def rataDie (y m d : Nat) : Nat :=
  365 * (y - 1) + (y - 1) / 4 - (y - 1) / 100 + (y - 1) / 400
    + daysBeforeMonth y m + d

/-- Microseconds of a datetime ignoring its timezone: the key Python uses
to compare two naive datetimes (field-lexicographic order coincides with
this linear key on valid dates). -/
def naiveKey (t : DateTime) : Int :=
  ((((rataDie t.year t.month t.day) * 24 + t.hour) * 60 + t.minute) * 60
      + t.second) * 1000000 + t.microsecond

/-- Microseconds of a datetime normalized to UTC: the key Python uses to
compare two aware datetimes (it subtracts each operand's utcoffset). -/
def utcKey (t : DateTime) : Int :=
  naiveKey t - (t.tz.getD 0) * 3600000000

/-- Python order comparison of two datetimes: comparing an offset-naive
with an offset-aware datetime raises TypeError; otherwise both are
compared through their (possibly UTC-normalized) keys. -/
def pyLtDT (a b : DateTime) : Except Unit Bool :=
  match a.tz, b.tz with
  | none, none => Except.ok (decide (naiveKey a < naiveKey b))
  | some _, some _ => Except.ok (decide (utcKey a < utcKey b))
  | _, _ => Except.error ()

/-- The validating Python datetime constructor: returns none (ValueError)
when a field is out of range.  Arguments are Int because Python's int()
can produce negative values from parsed text. -/
def mkDatetime (y mo d h mi s us : Int) (tz : Option Int) :
    Option DateTime :=
  if 1 ≤ y ∧ y ≤ 9999 then
    if 1 ≤ mo ∧ mo ≤ 12 then
      if 1 ≤ d ∧ d ≤ (daysInMonth y.toNat mo.toNat : Int) then
        if 0 ≤ h ∧ h ≤ 23 ∧ 0 ≤ mi ∧ mi ≤ 59 ∧ 0 ≤ s ∧ s ≤ 59
            ∧ 0 ≤ us ∧ us ≤ 999999 then
          some ⟨y.toNat, mo.toNat, d.toNat, h.toNat, mi.toNat, s.toNat,
                us.toNat, tz⟩
        else none
      else none
    else none
  else none

/-- datetime(MINYEAR, 1, 1): the naive sentinel used by atomail.py for
unparseable message dates and for missing updated elements. -/
def minSentinel : DateTime := ⟨1, 1, 1, 0, 0, 0, 0, none⟩

/-- Python str.strip whitespace set (as used by int() on strings). -/
def pyIsSpace (c : Char) : Bool :=
  c == ' ' || c == '\t' || c == '\n' || c == '\x0d' || c == '\x0c'
    || c == '\x0b'

/-- Python int(string): optional surrounding whitespace, an optional sign,
then one or more decimal digits; anything else raises ValueError (none). -/
def pyInt (s : String) : Option Int :=
  let cs := (s.toList.dropWhile pyIsSpace).reverse.dropWhile pyIsSpace
    |>.reverse
  let (neg, ds) :=
    match cs with
    | '-' :: rest => (true, rest)
    | '+' :: rest => (false, rest)
    | rest => (false, rest)
  if ds.isEmpty || !(ds.all Char.isDigit) then none
  else
    let n : Nat := ds.foldl (fun acc c => acc * 10 + (c.toNat - 48)) 0
    some (if neg then -(n : Int) else (n : Int))

/-- Python string slice s[a:b] (characters, since the feed text is ASCII
in all relevant places). -/
def pySlice (s : String) (a b : Nat) : String :=
  String.mk ((s.toList.drop a).take (b - a))

/-- Python string slice s[a:]. -/
def pySliceFrom (s : String) (a : Nat) : String :=
  String.mk (s.toList.drop a)

/-- The regex applied by from_atom_date to the text after position 19:
an optional fractional-seconds group followed by an optional sign and
two-digit hour offset; everything is optional so the match never fails,
and trailing text is ignored. -/
def msTzOfSuffix (suffix : List Char) : Nat × Int :=
  let (ms, rest) :=
    match suffix with
    | '.' :: rest0 =>
      let digits := rest0.takeWhile Char.isDigit
      if digits.isEmpty then (0, suffix)
      else (digits.foldl (fun acc c => acc * 10 + (c.toNat - 48)) 0,
            rest0.dropWhile Char.isDigit)
    | _ => (0, suffix)
  let tz : Int :=
    match rest with
    | c :: d1 :: d2 :: _ =>
      if (c == '+' || c == '-') && d1.isDigit && d2.isDigit then
        let v : Int := (d1.toNat - 48) * 10 + (d2.toNat - 48)
        if c == '-' then -v else v
      else 0
    | _ => 0
  (ms, tz)

/-- from_atom_date: parse fixed-position digit slices of the Atom date
text, read fractional seconds and a two-digit hour offset from the
suffix, and build a (validated, always offset-aware) datetime; none
models the ValueError raised on malformed text. -/
def from_atom_date (date : String) : Option DateTime := do
  let y ← pyInt (pySlice date 0 4)
  let mo ← pyInt (pySlice date 5 7)
  let d ← pyInt (pySlice date 8 10)
  let h ← pyInt (pySlice date 11 13)
  let mi ← pyInt (pySlice date 14 16)
  let s ← pyInt (pySlice date 17 19)
  let (ms, tz) := msTzOfSuffix (pySliceFrom date 19).toList
  mkDatetime y mo d h mi s (ms : Int) (some tz)

/-- Zero-padded decimal rendering of a natural number. -/
def padNum (width n : Nat) : String :=
  let s := toString n
  String.mk (List.replicate (width - s.length) '0') ++ s

/-- Python datetime.isoformat(): date and time fields, the fractional
part only when the microsecond field is nonzero, and a +HH:MM / -HH:MM
offset for aware values (class TZ always yields whole hours). -/
def pyIsoformat (t : DateTime) : String :=
  padNum 4 t.year ++ "-" ++ padNum 2 t.month ++ "-" ++ padNum 2 t.day
    ++ "T" ++ padNum 2 t.hour ++ ":" ++ padNum 2 t.minute ++ ":"
    ++ padNum 2 t.second
    ++ (if t.microsecond == 0 then "" else "." ++ padNum 6 t.microsecond)
    ++ (match t.tz with
        | none => ""
        | some h =>
          (if h < 0 then "-" else "+") ++ padNum 2 h.natAbs ++ ":00")

/-!
## Messages and message identity
-/

/-- A mail message as the core reads it: optional raw headers, plus the
list of decoded content leaves.  The recursive MIME walk and charset
decoding of message_contents (lines 93-109) depend entirely on the
platform mail library, which the specification declares an external
collaborator; its result list (contentType, text), in document order, is
therefore carried as a field. -/
structure Message where
  fromH : Option String
  subjectH : Option String
  dateH : Option String
  contents : List (String × String)
deriving DecidableEq, Repr

/-- message_id: the MD5 digest of the concatenation of the From, Subject
and Date header values, each skipped when absent (Python truthiness also
skips an empty header, which contributes nothing to the concatenation
either way).  The digest function itself (the md5 module) is a platform
parameter. -/
def message_id (digest : String → String) (m : Message) : String :=
  digest (m.fromH.getD "" ++ m.subjectH.getD "" ++ m.dateH.getD "")

/-- decode_header (lines 138-147): the RFC 2047 chunk decoding with the
iso8859-1 fallback is the platform mail library; the branching in the
source is the Python truthiness test (header if header else default),
where an absent or empty header falls back to the default text. -/
def decode_header (dec : String → String) (header : Option String)
    (default : String) : String :=
  dec (match header with
       | some h => if h == "" then default else h
       | none => default)

/-- Result of email.Utils.parsedate on a present header string: ok none
models a None return (unparseable text), ok (some fields) models the
9-tuple (y, mo, d, h, mi, s, 0, 1, -1) — indices 6, 7, 8 of the tuple
are the fixed placeholders 0, 1, -1, only the first six fields come from
the text — and error models the parser raising (it splits the string
unguarded, so for instance an empty header raises IndexError). -/
def ParsedateFn : Type :=
  String → Except Unit (Option (Int × Int × Int × Int × Int × Int))

/-- message_date (lines 85-91).  When the Date header is absent,
parsedate is called on None and raises (AttributeError on None.split()),
and the warning branch would likewise raise on concatenating None; either
way the exception escapes, so the model returns error.  On a successful
parse the code builds datetime(date[0..5], date[6], TZ(date[7])) where
date[6] = 0 and date[7] = 1 are parsedate's placeholder values: the
microsecond is always 0 and the timezone always UTC+1, regardless of the
offset written in the header.  On a None parse result it logs a warning
and returns the naive minimum sentinel. -/
def message_date (pd : ParsedateFn) (m : Message) :
    Except Unit DateTime :=
  match m.dateH with
  | none => Except.error ()
  | some s =>
    match pd s with
    | Except.error _ => Except.error ()
    | Except.ok none => Except.ok minSentinel
    | Except.ok (some (y, mo, d, h, mi, sec)) =>
      match mkDatetime y mo d h mi sec 0 (some 1) with
      | some t => Except.ok t
      | none => Except.error ()

/-!
## The feed document
-/

/-- The author element of an entry: always exactly one name child, and an
email child exactly when the email field is present. -/
structure Author where
  name : String
  email : Option String
deriving DecidableEq, Repr

/-- An entry element as add_message builds it.  updatedText is the text
of the updated child; none models an entry (in a loaded file) with no
updated element at all.  content is (type attribute, text). -/
structure Entry where
  idText : String
  author : Author
  publishedText : String
  updatedText : Option String
  titleText : String
  content : Option String × String
deriving DecidableEq, Repr

/-- A feed-level singleton element: tag name, attributes, text content. -/
structure MetaNode where
  tag : String
  attrs : List (String × String)
  text : String
deriving DecidableEq, Repr

/-- A direct child of the feed root. -/
inductive Child where
  | meta (m : MetaNode)
  | entry (e : Entry)
deriving DecidableEq, Repr

/-- The feed state: the root's children in document order, plus the
retention configuration stored on the object in __init__. -/
structure Feed where
  children : List Child
  max_items : Int
  max_time : Int
  strip_subject : Bool
deriving DecidableEq, Repr

/-- The entry children of a child list, in document order. -/
def entriesOfList (cs : List Child) : List Entry :=
  cs.filterMap (fun c =>
    match c with
    | Child.entry e => some e
    | Child.meta _ => none)

/-- The entry children of the root, in document order. -/
def entriesOf (f : Feed) : List Entry :=
  entriesOfList f.children

/-- Whether a child is a top-level element with the given tag name (the
filter on parentNode in replace_element and in the accessors). -/
def isMetaTag (tag : String) (c : Child) : Bool :=
  match c with
  | Child.meta m => m.tag == tag
  | Child.entry _ => false

/-- The first top-level element with the given tag, as the accessors id()
and updated() select it. -/
def firstMeta (f : Feed) (tag : String) : Option MetaNode :=
  match f.children.find? (isMetaTag tag) with
  | some (Child.meta m) => some m
  | _ => none

/-- Number of top-level children with the given tag. -/
def countMeta (f : Feed) (tag : String) : Nat :=
  f.children.countP (fun c => isMetaTag tag c)

/-- Remove the first top-level element with the given tag, if any: the
replaceChild step of replace_element detaches exactly that node (the new
element transiently takes its place before being moved). -/
def removeFirstMeta (children : List Child) (tag : String) :
    List Child :=
  match children with
  | [] => []
  | c :: rest =>
    if isMetaTag tag c then rest
    else c :: removeFirstMeta rest tag

/-- Insert an element immediately before the first entry child, or append
it at the end when there is no entry: the insertBefore/appendChild step
of replace_element. -/
def insertBeforeFirstEntry (children : List Child) (e : MetaNode) :
    List Child :=
  match children with
  | [] => [Child.meta e]
  | c :: rest =>
    match c with
    | Child.entry _ => Child.meta e :: c :: rest
    | Child.meta _ => c :: insertBeforeFirstEntry rest e

/-- replace_element (lines 306-318): the first existing top-level element
with the same tag is removed (replaced and then moved away), and the new
element ends up immediately before the first entry, or at the end when
the feed has no entries. -/
def replace_element (f : Feed) (e : MetaNode) : Feed :=
  { f with children :=
      insertBeforeFirstEntry (removeFirstMeta f.children e.tag) e }

/-- set_element_text (lines 300-304). -/
def set_element_text (f : Feed) (tag value : String) : Feed :=
  replace_element f ⟨tag, [], value⟩

/-- set_id (lines 285-287). -/
def set_id (f : Feed) (id : String) : Feed :=
  set_element_text f "id" id

/-- set_title (lines 289-291). -/
def set_title (f : Feed) (title : String) : Feed :=
  set_element_text f "title" title

/-- set_link (lines 293-298). -/
def set_link (f : Feed) (uri : String) : Feed :=
  replace_element f ⟨"link", [("rel", "self"), ("href", uri)], ""⟩

/-- set_updated (lines 339-341). -/
def set_updated (f : Feed) (t : DateTime) : Feed :=
  set_element_text f "updated" (pyIsoformat t)

/-- set_generator (lines 259-265). -/
def set_generator (f : Feed) : Feed :=
  replace_element f
    ⟨"generator",
     [("version", "0.9-dev"), ("uri", "http://el-tramo.be/software/atomail")],
     "AtoMail"⟩

/-- id() (lines 267-269): the text of the first top-level id element;
an empty filter result makes the subscript raise (error). -/
def feedId (f : Feed) : Except Unit String :=
  match firstMeta f "id" with
  | some m => Except.ok m.text
  | none => Except.error ()

/-- updated() (lines 281-283): the first top-level updated element parsed
as an Atom date; a missing element or unparseable text raises. -/
def feedUpdated (f : Feed) : Except Unit DateTime :=
  match firstMeta f "updated" with
  | some m =>
    match from_atom_date m.text with
    | some t => Except.ok t
    | none => Except.error ()
  | none => Except.error ()

/-- contains_message (lines 271-279): true iff some entry's id text
equals the feed id, a hash mark, and the message fingerprint. -/
def contains_message (digest : String → String) (f : Feed)
    (m : Message) : Except Unit Bool := do
  let fid ← feedId f
  Except.ok ((entriesOf f).any
    (fun e => e.idText == fid ++ "#" ++ message_id digest m))

/-!
## add_message
-/

/-- Character class of the subject-stripping regex: [a-zA-Z0-9:_\. -]. -/
def tagChar (c : Char) : Bool :=
  c.isAlpha || c.isDigit || c == ':' || c == '_' || c == '.' || c == ' '
    || c == '-'

/-- Try to match the regex \[[a-zA-Z0-9:_\. -]*\]\s* at the head of the
character list; on success return the remainder after the match.  The
class excludes the closing bracket, so the greedy run needs no
backtracking. -/
def matchTagAt (cs : List Char) : Option (List Char) :=
  match cs with
  | '[' :: rest =>
    match rest.dropWhile tagChar with
    | ']' :: rest2 => some (rest2.dropWhile pyIsSpace)
    | _ => none
  | _ => none

/-- re.sub scanning: at each position try the pattern; on a match drop it
and continue after it, otherwise keep the character.  Fuel bounds the
recursion (a match always consumes at least the two brackets). -/
def stripTagsAux : Nat → List Char → List Char
  | 0, cs => cs
  | _ + 1, [] => []
  | fuel + 1, c :: rest =>
    match matchTagAt (c :: rest) with
    | some rest2 => stripTagsAux fuel rest2
    | none => c :: stripTagsAux fuel rest

/-- The strip_subject substitution (line 237). -/
def pyStripTags (s : String) : String :=
  String.mk (stripTagsAux s.toList.length s.toList)

/-- Python cmp on (contentType, text) tuples: lexicographic. -/
def pairLt (x y : String × String) : Bool :=
  x.1 < y.1 || (x.1 == y.1 && x.2 < y.2)

/-- contents.sort(cmp) followed by contents[0] (lines 247-248): the
lexicographically least pair; ties are identical values, so the fold
keeping the earliest strict minimum models the stable sort's head. -/
def minContent (contents : List (String × String)) :
    Option (String × String) :=
  match contents with
  | [] => none
  | c :: rest =>
    some (rest.foldl (fun acc x => if pairLt x acc then x else acc) c)

/-- The author construction of add_message (lines 205-218): parseaddr is
applied to the decoded From header; only when both the display name and
the address are nonempty does the author get an email child, the name
child then holding the display name; otherwise the single name child
holds the whole decoded From text. -/
def mkAuthor (dec : String → String) (pa : String → String × String)
    (m : Message) : Author :=
  let from_address := decode_header dec m.fromH "Anonymous"
  let na := pa from_address
  if na.1 ≠ "" ∧ na.2 ≠ "" then ⟨na.1, some na.2⟩
  else ⟨from_address, none⟩

/-- The entry built by add_message (lines 193-257) for one message, given
the feed id text and the strip_subject flag (the only feed state the
construction reads).  message_date can raise as modelled above.  now is
the current_datetime() value used for the updated child. -/
def mkEntryCore (digest dec : String → String)
    (pa : String → String × String) (pd : ParsedateFn) (fid : String)
    (strip : Bool) (m : Message) (now : DateTime) : Except Unit Entry := do
  let author := mkAuthor dec pa m
  let date ← message_date pd m
  let title0 := decode_header dec m.subjectH "(No Subject)"
  let title := if strip then pyStripTags title0 else title0
  let content : Option String × String :=
    match minContent m.contents with
    | some ct => (some ct.1, ct.2)
    | none => (none, title)
  Except.ok ⟨fid ++ "#" ++ message_id digest m, author, pyIsoformat date,
             some (pyIsoformat now), title, content⟩

/-- The entry built by add_message for one message of a feed: self.id()
is read first (raising when the feed has no id element). -/
def mkEntry (digest dec : String → String)
    (pa : String → String × String) (pd : ParsedateFn) (f : Feed)
    (m : Message) (now : DateTime) : Except Unit Entry := do
  let fid ← feedId f
  mkEntryCore digest dec pa pd fid f.strip_subject m now

/-- add_message: build the entry and append it as the last child of the
feed root (line 257). -/
def add_message (digest dec : String → String)
    (pa : String → String × String) (pd : ParsedateFn) (f : Feed)
    (m : Message) (now : DateTime) : Except Unit Feed := do
  let e ← mkEntry digest dec pa pd f m now
  Except.ok { f with children := f.children ++ [Child.entry e] }

/-!
## Trimming
-/

/-- entry_date (lines 130-136): the entry's updated text parsed as an
Atom date (raising on malformed text), or the naive minimum sentinel
when the entry has no updated element. -/
def entry_date (e : Entry) : Except Unit DateTime :=
  match e.updatedText with
  | some s =>
    match from_atom_date s with
    | some d => Except.ok d
    | none => Except.error ()
  | none => Except.ok minSentinel

/-- Comparison used to sort entries in trim_entries: ascending by date
key, with the document-order index as tie-break, which reproduces the
stability of Python's sort (utcKey coincides with naiveKey on naive
dates, so it orders both uniform cases correctly). -/
def trimLe (a b : (Nat × Entry) × DateTime) : Bool :=
  utcKey a.2 < utcKey b.2
    || (utcKey a.2 == utcKey b.2 && a.1.1 ≤ b.1.1)

/-- Stable insertion of x into a list already sorted by le: x lands
before the first element it is le-below. -/
def insLe {α : Type} (le : α → α → Bool) (x : α) : List α → List α
  | [] => [x]
  | y :: ys => if le x y then x :: y :: ys else y :: insLe le x ys

/-- Stable insertion sort.  With the index tie-break of trimLe the order
is total and antisymmetric, so its output coincides with the output of
the stable sort of Python. -/
def insSort {α : Type} (le : α → α → Bool) : List α → List α
  | [] => []
  | x :: xs => insLe le x (insSort le xs)

/-- The age-based removal loop of trim_entries (lines 333-337): pop the
head while its date is strictly before the cutoff.  The cutoff datetime
is aware, so a naive head date makes the comparison raise; the loop stops
at the first head that is not older, never inspecting the rest. -/
def ageLoop (cutoff : Int) :
    List (Nat × Entry) → Except Unit (List (Nat × Entry))
  | [] => Except.ok []
  | p :: rest => do
    let d ← entry_date p.2
    match d.tz with
    | none => Except.error ()
    | some _ =>
      if utcKey d < cutoff then ageLoop cutoff rest
      else Except.ok (p :: rest)

/-- Keep the metas and exactly the entries whose document-order entry
index is listed (removeChild removes specific nodes; the survivors keep
their document order). -/
def filterEntriesByIdx (keep : List Nat) :
    List Child → Nat → List Child
  | [], _ => []
  | Child.meta m :: rest, k =>
    Child.meta m :: filterEntriesByIdx keep rest k
  | Child.entry e :: rest, k =>
    if keep.contains k then
      Child.entry e :: filterEntriesByIdx keep rest (k + 1)
    else filterEntriesByIdx keep rest (k + 1)

/-- The sort phase of trim_entries: with two or more entries the sort
evaluates entry_date on every element (every element takes part in at
least one comparison), so a malformed updated raises, and a mix of naive
and aware dates raises TypeError on the first mixed comparison; with at
most one entry no comparison runs and no date is evaluated.  The index
tie-break reproduces the stability of Python's sort. -/
def trimSort (f : Feed) : Except Unit (List (Nat × Entry)) :=
  let ies := (entriesOf f).enum
  if ies.length ≤ 1 then Except.ok ies
  else do
    let dates ← (entriesOf f).mapM entry_date
    if (dates.any fun d => d.tz.isSome)
        && (dates.any fun d => d.tz.isNone) then
      Except.error ()
    else
      Except.ok ((insSort trimLe (ies.zip dates)).map (fun p => p.1))

/-- The count phase of trim_entries: when max_items > 0 pop the oldest
(front) entries until at most max_items remain; no date is evaluated. -/
def trimCap (f : Feed) (sorted : List (Nat × Entry)) :
    List (Nat × Entry) :=
  if f.max_items > 0 then
    sorted.drop (sorted.length - f.max_items.toNat)
  else sorted

/-- The age phase of trim_entries: when max_time > 0 the cutoff
current_datetime() - timedelta(minutes=max_time) is formed (OverflowError
when it falls before year 1) and the age loop runs. -/
def trimAge (now : DateTime) (f : Feed) (l : List (Nat × Entry)) :
    Except Unit (List (Nat × Entry)) :=
  if f.max_time > 0 then
    if naiveKey now - f.max_time * 60000000 < naiveKey minSentinel then
      Except.error ()
    else ageLoop (utcKey now - f.max_time * 60000000) l
  else Except.ok l

/-- trim_entries (lines 320-337): sort, pop by count, pop by age, and
remove exactly the dropped entry nodes from the document (survivors keep
their document order).  now is the current_datetime() value trim obtains
itself. -/
def trim_entries (now : DateTime) (f : Feed) : Except Unit Feed := do
  let sorted ← trimSort f
  let afterAge ← trimAge now f (trimCap f sorted)
  Except.ok { f with children :=
      filterEntriesByIdx (afterAge.map (fun p => p.1)) f.children 0 }

/-- save (lines 343-354): update the generator, trim, and serialize; the
model keeps the resulting feed state (the written XML is its faithful
rendering).  now is the current_datetime() value trim obtains. -/
def save (now : DateTime) (f : Feed) : Except Unit Feed :=
  trim_entries now (set_generator f)

/-!
## Construction and the main ingestion pipeline
-/

/-- __init__ (lines 164-186).  fileDoc models the target file: none when
the file does not exist, some (error) when it exists but minidom.parse
raises (the bare except logs a warning and keeps the fresh document),
some (ok children) when it parses.  set_id and the minimum set_updated
are applied to the fresh document before the parse attempt, so a
successfully loaded file overwrites them; set_link and set_title are
applied after it in every case. -/
def feedInit (fileDoc : Option (Except Unit (List Child)))
    (uri title : String) (mi mt : Int) (strip : Bool) : Feed :=
  let f0 : Feed := ⟨[], mi, mt, strip⟩
  let f1 := set_updated (set_id f0 uri) minSentinel
  let f2 :=
    match fileDoc with
    | some (Except.ok cs) => { f1 with children := cs }
    | some (Except.error _) => f1
    | none => f1
  set_title (set_link f2 uri) title

/-- The ingestion loop (lines 599-609): for each message in source order,
stop (keeping the count) when the feed already contains it; otherwise
append it and stop when max_items > 0 and the incremented count exceeds
max_items.  now is the current_datetime() value add_message uses for the
updated child. -/
def ingestLoop (digest dec : String → String)
    (pa : String → String × String) (pd : ParsedateFn) (now : DateTime) :
    Feed → List Message → Nat → Except Unit (Feed × Nat)
  | f, [], count => Except.ok (f, count)
  | f, m :: rest, count => do
    let c ← contains_message digest f m
    if c then Except.ok (f, count)
    else do
      let f2 ← add_message digest dec pa pd f m now
      if f2.max_items > 0 ∧ (count + 1 : Int) > f2.max_items then
        Except.ok (f2, count + 1)
      else ingestLoop digest dec pa pd now f2 rest (count + 1)

/-- The driver tail of __main__ (lines 567-613): construct the feed, read
its updated time (raising on a malformed stored date), compute the unused
from_time (whose subtraction can overflow below year 1 and whose max()
comparison would mix naive and aware if the current time were naive),
run the ingestion loop, stamp the feed-level updated with the current
time, and save.  now is the current time taken at line 569; trimNow the
later current_datetime() call inside trim_entries. -/
def mainRun (digest dec : String → String)
    (pa : String → String × String) (pd : ParsedateFn)
    (fileDoc : Option (Except Unit (List Child))) (uri title : String)
    (mi mt : Int) (strip : Bool) (msgs : List Message)
    (now trimNow : DateTime) : Except Unit Feed := do
  let feed := feedInit fileDoc uri title mi mt strip
  let _updated_time ← feedUpdated feed
  if mt > 0 ∧ (naiveKey now - mt * 60000000 < naiveKey minSentinel
      ∨ now.tz = none) then
    Except.error ()
  else do
    let r ← ingestLoop digest dec pa pd now feed msgs 0
    save trimNow (set_updated r.1 now)

/-!
## Sequences of set operations (for the singleton invariant)
-/

/-- One of the five feed-level set operations. -/
inductive SetOp where
  | sId (s : String)
  | sTitle (s : String)
  | sLink (s : String)
  | sUpdated (t : DateTime)
  | sGen
deriving DecidableEq, Repr

/-- The element each set operation passes to replace_element. -/
def opMeta : SetOp → MetaNode
  | SetOp.sId s => ⟨"id", [], s⟩
  | SetOp.sTitle s => ⟨"title", [], s⟩
  | SetOp.sLink s => ⟨"link", [("rel", "self"), ("href", s)], ""⟩
  | SetOp.sUpdated t => ⟨"updated", [], pyIsoformat t⟩
  | SetOp.sGen =>
    ⟨"generator",
     [("version", "0.9-dev"), ("uri", "http://el-tramo.be/software/atomail")],
     "AtoMail"⟩

/-- The tag of the singleton element a set operation targets. -/
def opTag (op : SetOp) : String := (opMeta op).tag

/-- Apply one set operation. -/
def applyOp (f : Feed) : SetOp → Feed
  | SetOp.sId s => set_id f s
  | SetOp.sTitle s => set_title f s
  | SetOp.sLink s => set_link f s
  | SetOp.sUpdated t => set_updated f t
  | SetOp.sGen => set_generator f

/-- Apply a sequence of set operations left to right. -/
def applyOps (f : Feed) : List SetOp → Feed
  | [] => f
  | op :: rest => applyOps (applyOp f op) rest

/-- The tags of the top-level singleton elements, in document order; the
invariant that each singleton kind occurs at most once as a direct child
is their nodup-ness. -/
def metaTags (cs : List Child) : List String :=
  cs.filterMap (fun c =>
    match c with
    | Child.meta m => some m.tag
    | Child.entry _ => none)

/-!
## Concrete platform instances and inputs used by witnesses
-/

/-- A digest stand-in for witnesses: the identity on header text. -/
def digestId : String → String := fun s => s

/-- A header decoder stand-in for witnesses: plain text decodes to
itself. -/
def decId : String → String := fun s => s

/-- A parseaddr stand-in for witnesses: recognizes one display-name
address and otherwise returns no display name, as parseaddr does on a
bare word. -/
def paEx : String → String × String := fun s =>
  if s == "Alice <a@b>" then ("Alice", "a@b") else ("", s)

/-- A parsedate stand-in returning None for every header text. -/
def pdNone : ParsedateFn := fun _ => Except.ok none

/-- A parsedate stand-in for one concrete RFC 2822 date with UTC offset
-0500: email.Utils.parsedate yields (2007, 1, 1, 10, 0, 0, 0, 1, -1) for
it (the offset is dropped; indices 6 and 7 are the placeholders). -/
def pdEx : ParsedateFn := fun s =>
  if s == "Mon, 01 Jan 2007 10:00:00 -0500" then
    Except.ok (some (2007, 1, 1, 10, 0, 0))
  else Except.ok none

/-- A message with no Date header at all. -/
def msgNoDate : Message := ⟨none, none, none, []⟩

/-- A message with a Date header pdEx parses. -/
def msgDateEx : Message :=
  ⟨some "Alice <a@b>", some "hello",
   some "Mon, 01 Jan 2007 10:00:00 -0500", []⟩

/-- A message with a Date header no parser accepts. -/
def msgBadDate : Message := ⟨none, some "s", some "garbage", []⟩

/-- A message without From, for the Anonymous fallback. -/
def msgAnon : Message := ⟨none, some "s", some "garbage", []⟩

/-- Messages distinguished only by subject, for loop witnesses. -/
def msgSub (sub : String) : Message := ⟨none, some sub, some "D", []⟩

/-- An entry with a parseable aware updated date, for feed witnesses. -/
def entryAt (id upd : String) : Entry :=
  ⟨id, ⟨"x", none⟩, "p", some upd, "t", (none, "c")⟩

/-- An entry whose updated text is unparseable. -/
def entryBadDate : Entry :=
  ⟨"e1", ⟨"x", none⟩, "p", some "garbage", "t", (none, "c")⟩

/-- An aware current time for run witnesses. -/
def nowEx : DateTime := ⟨2007, 5, 5, 0, 0, 0, 0, some 0⟩

/-- The later aware time trim obtains, for run witnesses. -/
def trimNowEx : DateTime := ⟨2007, 5, 5, 0, 1, 0, 0, some 0⟩

/-- The entry the corrupt-file witness run ingests for msgDateEx. -/
def eC4 : Entry :=
  ⟨"u#Alice <a@b>helloMon, 01 Jan 2007 10:00:00 -0500",
   ⟨"Alice", some "a@b"⟩, "2007-01-01T10:00:00+01:00",
   some "2007-05-05T00:00:00+00:00", "hello", (none, "hello")⟩

/-- The saved feed of the corrupt-file witness run. -/
def gC4 : Feed :=
  ⟨[Child.meta ⟨"id", [], "u"⟩,
    Child.meta ⟨"link", [("rel", "self"), ("href", "u")], ""⟩,
    Child.meta ⟨"title", [], "t"⟩,
    Child.meta ⟨"updated", [], "2007-05-05T00:00:00+00:00"⟩,
    Child.meta ⟨"generator",
      [("version", "0.9-dev"), ("uri", "http://el-tramo.be/software/atomail")],
      "AtoMail"⟩,
    Child.entry eC4], 10, -1, false⟩

/-- Date-key order on indexed entries: whatever dates the two entries
parse to, the first is not newer than the second.  This is the order in
which trim retains entries. -/
def entryKeyLe (a b : Nat × Entry) : Prop :=
  ∀ da db, entry_date a.2 = Except.ok da → entry_date b.2 = Except.ok db →
    utcKey da ≤ utcKey db

/-- Feed used by the loop counterexamples: id F, one entry whose id is
the fingerprint of msgSub d under the identity digest, cap 1. -/
def fdC1 : Feed :=
  ⟨[Child.meta ⟨"id", [], "F"⟩,
    Child.entry (entryAt "F#dD" "2007-01-02T03:04:05+00")], 1, -1, false⟩

/-- The entry the witness run builds for msgSub a. -/
def eC1a : Entry :=
  ⟨"F#aD", ⟨"Anonymous", none⟩, "0001-01-01T00:00:00",
   some "2007-05-05T00:00:00+00:00", "a", (none, "a")⟩

/-- The entry the witness run builds for msgSub b. -/
def eC1b : Entry :=
  ⟨"F#bD", ⟨"Anonymous", none⟩, "0001-01-01T00:00:00",
   some "2007-05-05T00:00:00+00:00", "b", (none, "b")⟩

/-- A feed with three dated entries and cap 2, for the trim witness. -/
def fC2 : Feed :=
  ⟨[Child.meta ⟨"id", [], "F"⟩,
    Child.entry (entryAt "e1" "2007-01-03T00:00:00+00"),
    Child.entry (entryAt "e2" "2007-01-01T00:00:00+00"),
    Child.entry (entryAt "e3" "2007-01-02T00:00:00+00")], 2, -1, false⟩

/-- What trim leaves of fC2: the two entries with the greatest dates, in
document order. -/
def gC2w : Feed :=
  ⟨[Child.meta ⟨"id", [], "F"⟩,
    Child.entry (entryAt "e1" "2007-01-03T00:00:00+00"),
    Child.entry (entryAt "e3" "2007-01-02T00:00:00+00")], 2, -1, false⟩

/-- A feed holding an entry whose updated text does not parse, next to a
parseable one. -/
def fC2bad : Feed :=
  ⟨[Child.meta ⟨"id", [], "F"⟩,
    Child.entry entryBadDate,
    Child.entry (entryAt "e2" "2007-01-02T03:04:05+00")], 1, -1, false⟩

/-- The stored file of the re-run witness: the state a first run saved,
with id F, a parseable aware updated element, and one entry whose id is
the fingerprint of msgSub a under the identity digest. -/
def csC5 : List Child :=
  [Child.meta ⟨"id", [], "F"⟩,
   Child.meta ⟨"updated", [], "2007-01-02T03:04:05+00:00"⟩,
   Child.entry (entryAt "F#aD" "2007-01-02T03:04:05+00")]

/-!
## Structural lemmas about the feed document operations
-/

theorem entriesOfList_append (cs ds : List Child) :
    entriesOfList (cs ++ ds) = entriesOfList cs ++ entriesOfList ds := by
  simp [entriesOfList, List.filterMap_append]

theorem entriesOfList_removeFirstMeta (cs : List Child) (tag : String) :
    entriesOfList (removeFirstMeta cs tag) = entriesOfList cs := by
  induction cs with
  | nil => rfl
  | cons c rest ih =>
    cases c with
    | meta m =>
      by_cases h : m.tag = tag
      · simp [removeFirstMeta, isMetaTag, h, entriesOfList]
      · simp only [removeFirstMeta, isMetaTag]
        rw [if_neg (by simpa using h)]
        simpa [entriesOfList] using ih
    | entry e =>
      have hf : isMetaTag tag (Child.entry e) = false := by simp [isMetaTag]
      simp only [removeFirstMeta, hf]
      simpa [entriesOfList] using ih

theorem entriesOfList_insertBefore (cs : List Child) (e : MetaNode) :
    entriesOfList (insertBeforeFirstEntry cs e) = entriesOfList cs := by
  induction cs with
  | nil => rfl
  | cons c rest ih =>
    cases c with
    | meta m => simpa [insertBeforeFirstEntry, entriesOfList] using ih
    | entry x => simp [insertBeforeFirstEntry, entriesOfList]

theorem entriesOf_replace (f : Feed) (e : MetaNode) :
    entriesOf (replace_element f e) = entriesOf f := by
  simp [entriesOf, replace_element, entriesOfList_insertBefore,
    entriesOfList_removeFirstMeta]

theorem entriesOf_set_updated (f : Feed) (t : DateTime) :
    entriesOf (set_updated f t) = entriesOf f :=
  entriesOf_replace f _

theorem entriesOf_set_generator (f : Feed) :
    entriesOf (set_generator f) = entriesOf f :=
  entriesOf_replace f _

theorem max_items_replace (f : Feed) (e : MetaNode) :
    (replace_element f e).max_items = f.max_items := rfl

/-- Number of top-level children with the given tag, list level. -/
def countMetaL (cs : List Child) (tag : String) : Nat :=
  cs.countP (fun c => isMetaTag tag c)

theorem countMeta_eq_countMetaL (f : Feed) (tag : String) :
    countMeta f tag = countMetaL f.children tag := rfl

theorem countMetaL_removeFirst_self (cs : List Child) (tag : String) :
    countMetaL (removeFirstMeta cs tag) tag = countMetaL cs tag - 1 := by
  induction cs with
  | nil => rfl
  | cons c rest ih =>
    by_cases h : isMetaTag tag c
    · simp [removeFirstMeta, h, countMetaL, List.countP_cons]
    · simp only [removeFirstMeta, if_neg h]
      simp only [countMetaL, List.countP_cons] at *
      simp [h, ih]

theorem countMetaL_removeFirst_other (cs : List Child) {t tag : String}
    (h : t ≠ tag) :
    countMetaL (removeFirstMeta cs tag) t = countMetaL cs t := by
  induction cs with
  | nil => rfl
  | cons c rest ih =>
    by_cases hc : isMetaTag tag c
    · have hct : isMetaTag t c = false := by
        cases c with
        | meta m =>
          simp only [isMetaTag] at hc ⊢
          simp only [beq_iff_eq] at hc
          simp [hc, h.symm]
        | entry e => simp [isMetaTag] at hc
      simp [removeFirstMeta, hc, countMetaL, List.countP_cons, hct]
    · simp only [removeFirstMeta, if_neg hc]
      simp only [countMetaL, List.countP_cons] at *
      simp [ih]

theorem countMetaL_insert (cs : List Child) (e : MetaNode) (t : String) :
    countMetaL (insertBeforeFirstEntry cs e) t
      = countMetaL cs t + (if e.tag == t then 1 else 0) := by
  induction cs with
  | nil =>
    by_cases h : e.tag == t <;>
      simp [insertBeforeFirstEntry, countMetaL, List.countP_cons,
        isMetaTag, h]
  | cons c rest ih =>
    cases c with
    | meta m =>
      simp only [insertBeforeFirstEntry, countMetaL, List.countP_cons]
        at *
      simp only [ih]
      omega
    | entry x =>
      by_cases h : e.tag == t <;>
        simp [insertBeforeFirstEntry, countMetaL, List.countP_cons,
          isMetaTag, h]

theorem countMeta_replace_self (f : Feed) (e : MetaNode) :
    countMeta (replace_element f e) e.tag
      = (countMeta f e.tag - 1) + 1 := by
  simp [countMeta_eq_countMetaL, replace_element, countMetaL_insert,
    countMetaL_removeFirst_self]

theorem countMeta_replace_other (f : Feed) (e : MetaNode) {t : String}
    (h : t ≠ e.tag) :
    countMeta (replace_element f e) t = countMeta f t := by
  have he : (e.tag == t) = false := by
    simp only [beq_eq_false_iff_ne, ne_eq]
    exact fun hh => h hh.symm
  simp [countMeta_eq_countMetaL, replace_element, countMetaL_insert,
    countMetaL_removeFirst_other _ h, he]

/-- First top-level element with a tag, list level. -/
def findMeta (cs : List Child) (tag : String) : Option Child :=
  cs.find? (isMetaTag tag)

theorem firstMeta_eq_findMeta (f : Feed) (tag : String) :
    firstMeta f tag
      = (match findMeta f.children tag with
         | some (Child.meta m) => some m
         | _ => none) := rfl

theorem findMeta_removeFirst_other (cs : List Child) {t tag : String}
    (h : t ≠ tag) :
    findMeta (removeFirstMeta cs tag) t = findMeta cs t := by
  induction cs with
  | nil => rfl
  | cons c rest ih =>
    by_cases hc : isMetaTag tag c
    · have hct : isMetaTag t c = false := by
        cases c with
        | meta m =>
          simp only [isMetaTag, beq_iff_eq] at hc ⊢
          simp [hc, h.symm]
        | entry e => simp [isMetaTag] at hc
      simp [removeFirstMeta, hc, findMeta, List.find?_cons, hct]
    · simp only [removeFirstMeta, if_neg hc]
      by_cases hct : isMetaTag t c
      · simp [findMeta, List.find?_cons, hct]
      · simp only [findMeta, List.find?_cons] at *
        simp [hct, ih]

theorem findMeta_insert_other (cs : List Child) (e : MetaNode)
    {t : String} (h : t ≠ e.tag) :
    findMeta (insertBeforeFirstEntry cs e) t = findMeta cs t := by
  have he : isMetaTag t (Child.meta e) = false := by
    simp only [isMetaTag, beq_eq_false_iff_ne, ne_eq]
    exact fun hh => h hh.symm
  induction cs with
  | nil => simp [insertBeforeFirstEntry, findMeta, List.find?_cons, he]
  | cons c rest ih =>
    cases c with
    | meta m =>
      by_cases hct : isMetaTag t (Child.meta m)
      · simp [insertBeforeFirstEntry, findMeta, List.find?_cons, hct]
      · simp only [insertBeforeFirstEntry, findMeta, List.find?_cons] at *
        simp [hct, ih]
    | entry x =>
      have he2 : (e.tag == t) = false := by
        simpa [isMetaTag] using he
      simp [insertBeforeFirstEntry, findMeta, List.find?_cons, he, he2,
        isMetaTag]

theorem findMeta_count_zero (cs : List Child) (tag : String)
    (h : countMetaL cs tag = 0) : findMeta cs tag = none := by
  induction cs with
  | nil => rfl
  | cons c rest ih =>
    simp only [countMetaL, List.countP_cons] at h ih
    by_cases hc : isMetaTag tag c
    · simp [hc] at h
    · simp only [findMeta, List.find?_cons, hc, cond_false]
      exact ih (by omega)

theorem findMeta_insert_self (cs : List Child) (e : MetaNode)
    (h : countMetaL cs e.tag = 0) :
    findMeta (insertBeforeFirstEntry cs e) e.tag
      = some (Child.meta e) := by
  induction cs with
  | nil => simp [insertBeforeFirstEntry, findMeta, List.find?_cons,
      isMetaTag]
  | cons c rest ih =>
    simp only [countMetaL, List.countP_cons] at h ih
    cases c with
    | meta m =>
      by_cases hc : isMetaTag e.tag (Child.meta m)
      · simp [hc] at h
      · simp only [insertBeforeFirstEntry, findMeta, List.find?_cons, hc,
          cond_false] at *
        exact ih (by omega)
    | entry x =>
      simp [insertBeforeFirstEntry, findMeta, List.find?_cons, isMetaTag]

theorem countMetaL_removeFirst_le_zero (cs : List Child) (tag : String)
    (h : countMetaL cs tag ≤ 1) :
    countMetaL (removeFirstMeta cs tag) tag = 0 := by
  rw [countMetaL_removeFirst_self]
  omega

theorem firstMeta_replace_self (f : Feed) (e : MetaNode)
    (h : countMeta f e.tag ≤ 1) :
    firstMeta (replace_element f e) e.tag = some e := by
  have h0 : countMetaL (removeFirstMeta f.children e.tag) e.tag = 0 :=
    countMetaL_removeFirst_le_zero _ _ h
  have := findMeta_insert_self (removeFirstMeta f.children e.tag) e h0
  simp [firstMeta_eq_findMeta, replace_element, findMeta] at this ⊢
  simp [this]

theorem firstMeta_replace_other (f : Feed) (e : MetaNode) {t : String}
    (h : t ≠ e.tag) :
    firstMeta (replace_element f e) t = firstMeta f t := by
  simp [firstMeta_eq_findMeta, replace_element,
    findMeta_insert_other _ _ h, findMeta_removeFirst_other _ h]

/-!
## Lemmas about entry construction
-/

theorem mkDatetime_fields {y mo d h mi s us : Int} {tz : Option Int}
    {t : DateTime} (hk : mkDatetime y mo d h mi s us tz = some t) :
    t.tz = tz ∧ t.microsecond = us.toNat := by
  unfold mkDatetime at hk
  split at hk
  · split at hk
    · split at hk
      · split at hk
        · cases hk
          exact ⟨rfl, rfl⟩
        · cases hk
      · cases hk
    · cases hk
  · cases hk

theorem mkEntryCore_idText {digest dec : String → String}
    {pa : String → String × String} {pd : ParsedateFn} {fid : String}
    {strip : Bool} {m : Message} {now : DateTime} {e : Entry}
    (h : mkEntryCore digest dec pa pd fid strip m now = Except.ok e) :
    e.idText = fid ++ "#" ++ message_id digest m := by
  cases hd : message_date pd m with
  | error u =>
    simp only [mkEntryCore] at h
    rw [hd] at h
    exact Except.noConfusion h
  | ok d =>
    simp only [mkEntryCore, hd, Except.bind] at h
    cases h
    rfl

theorem mkEntryCore_author {digest dec : String → String}
    {pa : String → String × String} {pd : ParsedateFn} {fid : String}
    {strip : Bool} {m : Message} {now : DateTime} {e : Entry}
    (h : mkEntryCore digest dec pa pd fid strip m now = Except.ok e) :
    e.author = mkAuthor dec pa m := by
  cases hd : message_date pd m with
  | error u =>
    simp only [mkEntryCore] at h
    rw [hd] at h
    exact Except.noConfusion h
  | ok d =>
    simp only [mkEntryCore, hd, Except.bind] at h
    cases h
    rfl

theorem mkEntryCore_ok {digest dec : String → String}
    {pa : String → String × String} {pd : ParsedateFn} {fid : String}
    {strip : Bool} {m : Message} {now : DateTime} {d : DateTime}
    (hd : message_date pd m = Except.ok d) :
    ∃ e, mkEntryCore digest dec pa pd fid strip m now = Except.ok e := by
  cases hres : mkEntryCore digest dec pa pd fid strip m now with
  | ok e => exact ⟨e, rfl⟩
  | error u =>
    exfalso
    simp only [mkEntryCore] at hres
    rw [hd] at hres
    exact Except.noConfusion hres

/-!
## Claim theorems: message dates and author shape
-/

/-- C6 (corrected).  The claim also covers a message with no Date header;
on such a message the stdlib parser is handed None and raises before the
recovery branch can run (and the warning branch itself would raise on
concatenating None), so no sentinel is produced: see the counterexample.
Amended claim: for every message whose Date header is present but does
not parse (the mail-date parser returns no result), message_date logs a
warning and returns the sentinel minimum timestamp, and no exception
escapes. -/
theorem C6_date_parse_recovery (pd : ParsedateFn) (m : Message)
    (s : String) (hm : m.dateH = some s) (hp : pd s = Except.ok none) :
    message_date pd m = Except.ok minSentinel := by
  simp [message_date, hm, hp]

theorem C6_date_parse_recovery_witness :
    message_date pdNone msgBadDate = Except.ok minSentinel :=
  C6_date_parse_recovery pdNone msgBadDate "garbage" rfl rfl

/-- C6 counterexample: a message with no Date header at all makes
message_date raise (the claim asserts it returns the sentinel and that no
exception escapes). -/
theorem C6_no_date_counterexample :
    message_date pdNone msgNoDate = Except.error () := rfl

/-- C7 (code bug).  The claim says the returned timestamp carries the UTC
offset embedded in the Date header.  The code passes TZ(date[7]) where
date[7] is parsedate's constant placeholder 1 (parsedate, unlike
parsedate_tz, drops the offset), so every successfully parsed message
gets the fixed offset UTC+1 whatever its header says; the date and time
fields and the zero microsecond do match the header. -/
theorem C7_timezone_constant (pd : ParsedateFn) (m : Message)
    (s : String) (t : Int × Int × Int × Int × Int × Int)
    (hm : m.dateH = some s) (hp : pd s = Except.ok (some t))
    (dt : DateTime) (hok : message_date pd m = Except.ok dt) :
    dt.tz = some 1 ∧ dt.microsecond = 0 := by
  obtain ⟨y, mo, d, h, mi, sec⟩ := t
  simp only [message_date, hm, hp] at hok
  cases hk : mkDatetime y mo d h mi sec 0 (some 1) with
  | none => rw [hk] at hok; cases hok
  | some t' =>
    rw [hk] at hok
    cases hok
    simpa using mkDatetime_fields hk

theorem C7_timezone_constant_witness :
    (⟨2007, 1, 1, 10, 0, 0, 0, some 1⟩ : DateTime).tz = some 1
      ∧ (⟨2007, 1, 1, 10, 0, 0, 0, some 1⟩ : DateTime).microsecond = 0 :=
  C7_timezone_constant pdEx msgDateEx "Mon, 01 Jan 2007 10:00:00 -0500"
    (2007, 1, 1, 10, 0, 0) rfl rfl
    ⟨2007, 1, 1, 10, 0, 0, 0, some 1⟩ rfl

/-- C10 (confirmed).  The created entry's author has an email child iff
parseaddr on the decoded From header yields both a nonempty display name
and a nonempty address, in which case the name child holds the display
name and the email child the address; otherwise the author is exactly one
name child holding the whole decoded From text, which is the literal
Anonymous fallback when the From header is absent. -/
theorem C10_author_shape (dec : String → String)
    (pa : String → String × String) (m : Message) :
    ((mkAuthor dec pa m).email.isSome ↔
        ((pa (decode_header dec m.fromH "Anonymous")).1 ≠ ""
          ∧ (pa (decode_header dec m.fromH "Anonymous")).2 ≠ ""))
    ∧ (((pa (decode_header dec m.fromH "Anonymous")).1 ≠ ""
          ∧ (pa (decode_header dec m.fromH "Anonymous")).2 ≠ "") →
        mkAuthor dec pa m
          = ⟨(pa (decode_header dec m.fromH "Anonymous")).1,
             some (pa (decode_header dec m.fromH "Anonymous")).2⟩)
    ∧ (¬ ((pa (decode_header dec m.fromH "Anonymous")).1 ≠ ""
          ∧ (pa (decode_header dec m.fromH "Anonymous")).2 ≠ "") →
        mkAuthor dec pa m
          = ⟨decode_header dec m.fromH "Anonymous", none⟩)
    ∧ (m.fromH = none → dec "Anonymous" = "Anonymous" →
        pa "Anonymous" = ("", "Anonymous") →
        mkAuthor dec pa m = ⟨"Anonymous", none⟩)
    ∧ (∀ digest pd fid strip now e,
        mkEntryCore digest dec pa pd fid strip m now = Except.ok e →
        e.author = mkAuthor dec pa m) := by
  refine ⟨?_, ?_, ?_, ?_, ?_⟩
  · by_cases h : (pa (decode_header dec m.fromH "Anonymous")).1 ≠ ""
        ∧ (pa (decode_header dec m.fromH "Anonymous")).2 ≠ "" <;>
      simp [mkAuthor, h]
  · intro h
    simp [mkAuthor, h]
  · intro h
    simp [mkAuthor, h]
  · intro hf hdec hpa
    have hfa : decode_header dec m.fromH "Anonymous" = "Anonymous" := by
      simp [decode_header, hf, hdec]
    simp [mkAuthor, hfa, hpa]
  · intro digest pd fid strip now e he
    exact mkEntryCore_author he

theorem C10_author_shape_witness :
    mkAuthor decId paEx ⟨some "Alice <a@b>", none, none, []⟩
        = ⟨"Alice", some "a@b"⟩
      ∧ mkAuthor decId paEx msgNoDate = ⟨"Anonymous", none⟩ := by
  have h1 := C10_author_shape decId paEx ⟨some "Alice <a@b>", none, none, []⟩
  have h2 := C10_author_shape decId paEx msgNoDate
  exact ⟨(h1.2.1 ⟨by decide, by decide⟩).trans (by decide),
         h2.2.2.2.1 rfl rfl (by decide)⟩

/-!
## Lemmas about sequences of set operations
-/

theorem countMetaL_eq_count_metaTags (cs : List Child) (tag : String) :
    countMetaL cs tag = (metaTags cs).count tag := by
  induction cs with
  | nil => rfl
  | cons c rest ih =>
    cases c with
    | meta m =>
      have h1 : metaTags (Child.meta m :: rest) = m.tag :: metaTags rest :=
        rfl
      have h2 : countMetaL (Child.meta m :: rest) tag
          = countMetaL rest tag
            + (if isMetaTag tag (Child.meta m) then 1 else 0) := by
        simp [countMetaL, List.countP_cons]
      rw [h1, List.count_cons, h2, ih]
      congr 1
    | entry e =>
      have h1 : metaTags (Child.entry e :: rest) = metaTags rest := rfl
      have h2 : countMetaL (Child.entry e :: rest) tag
          = countMetaL rest tag := by
        simp [countMetaL, List.countP_cons, isMetaTag]
      rw [h1, h2, ih]

theorem countMeta_le_one_of_nodup {f : Feed}
    (h : (metaTags f.children).Nodup) (tag : String) :
    countMeta f tag ≤ 1 := by
  rw [countMeta_eq_countMetaL, countMetaL_eq_count_metaTags]
  exact List.nodup_iff_count_le_one.mp h tag

theorem applyOp_eq_replace (f : Feed) (op : SetOp) :
    applyOp f op = replace_element f (opMeta op) := by
  cases op <;> rfl

theorem countMeta_applyOp_le {f : Feed} {t : String}
    (h : countMeta f t ≤ 1) (op : SetOp) :
    countMeta (applyOp f op) t ≤ 1 := by
  rw [applyOp_eq_replace]
  by_cases ht : t = (opMeta op).tag
  · subst ht
    rw [countMeta_replace_self]
    omega
  · rw [countMeta_replace_other _ _ ht]
    exact h

theorem countMeta_applyOps_le (ops : List SetOp) :
    ∀ f : Feed, (∀ tag, countMeta f tag ≤ 1) →
    ∀ tag, countMeta (applyOps f ops) tag ≤ 1 := by
  induction ops with
  | nil => intro f hf tag; exact hf tag
  | cons op rest ih =>
    intro f hf tag
    exact ih (applyOp f op) (fun u => countMeta_applyOp_le (hf u) op) tag

theorem applyOps_append (l1 l2 : List SetOp) (f : Feed) :
    applyOps f (l1 ++ l2) = applyOps (applyOps f l1) l2 := by
  induction l1 generalizing f with
  | nil => rfl
  | cons op rest ih => simp [applyOps, ih]

theorem countMeta_applyOp_self {f : Feed}
    (op : SetOp) (h : countMeta f (opTag op) ≤ 1) :
    countMeta (applyOp f op) (opTag op) = 1 := by
  rw [applyOp_eq_replace, opTag] at *
  rw [countMeta_replace_self]
  omega

theorem firstMeta_applyOp_self {f : Feed}
    (op : SetOp) (h : countMeta f (opTag op) ≤ 1) :
    firstMeta (applyOp f op) (opTag op) = some (opMeta op) := by
  rw [applyOp_eq_replace, opTag] at *
  exact firstMeta_replace_self f _ h

theorem applyOps_titles (vs : List String) :
    ∀ (f : Feed) (v : String), (∀ tag, countMeta f tag ≤ 1) →
    countMeta (applyOps f ((vs ++ [v]).map SetOp.sTitle)) "title" = 1
      ∧ firstMeta (applyOps f ((vs ++ [v]).map SetOp.sTitle)) "title"
          = some ⟨"title", [], v⟩ := by
  induction vs with
  | nil =>
    intro f v hf
    have h1 := countMeta_applyOp_self (SetOp.sTitle v) (hf "title")
    have h2 := firstMeta_applyOp_self (SetOp.sTitle v) (hf "title")
    exact ⟨h1, h2⟩
  | cons w rest ih =>
    intro f v hf
    have : ((w :: rest) ++ [v]).map SetOp.sTitle
        = SetOp.sTitle w :: (rest ++ [v]).map SetOp.sTitle := by simp
    rw [this]
    exact ih (applyOp f (SetOp.sTitle w)) v
      (fun u => countMeta_applyOp_le (hf u) (SetOp.sTitle w))

/-!
## Claim theorems: singleton invariant and load re-application
-/

/-- C3 (corrected).  The claim demands exactly one child of each of the
five singleton kinds at all times; a freshly constructed feed has no
generator child (and none of title/link before those setters run), so the
strict form fails: see the counterexample.  Amended claim: starting from
a feed whose top-level singleton tags are duplicate-free (as every feed
this program constructs is), every sequence of set operations keeps each
kind at most once at all times, a set operation leaves exactly one child
of its kind, and after N consecutive setTitle calls there is exactly one
title child and its text is the last value set. -/
theorem C3_singleton_invariant (f : Feed)
    (hf : (metaTags f.children).Nodup) :
    (∀ ops tag, countMeta (applyOps f ops) tag ≤ 1)
    ∧ (∀ pre op, countMeta (applyOps f (pre ++ [op])) (opTag op) = 1)
    ∧ (∀ vs v,
        countMeta (applyOps f ((vs ++ [v]).map SetOp.sTitle)) "title" = 1
        ∧ firstMeta (applyOps f ((vs ++ [v]).map SetOp.sTitle)) "title"
            = some ⟨"title", [], v⟩) := by
  have hle : ∀ tag, countMeta f tag ≤ 1 := countMeta_le_one_of_nodup hf
  refine ⟨?_, ?_, ?_⟩
  · intro ops tag
    exact countMeta_applyOps_le ops f hle tag
  · intro pre op
    rw [applyOps_append]
    exact countMeta_applyOp_self op
      (countMeta_applyOps_le pre f hle (opTag op))
  · intro vs v
    exact applyOps_titles vs f v hle

theorem C3_singleton_invariant_witness :
    countMeta (applyOps (feedInit none "u" "t" 10 (-1) false)
        (((["a"]) ++ ["b"]).map SetOp.sTitle)) "title" = 1
      ∧ firstMeta (applyOps (feedInit none "u" "t" 10 (-1) false)
          (((["a"]) ++ ["b"]).map SetOp.sTitle)) "title"
          = some ⟨"title", [], "b"⟩ :=
  (C3_singleton_invariant (feedInit none "u" "t" 10 (-1) false)
    (by decide)).2.2 ["a"] "b"

/-- C3 counterexample: a freshly constructed feed (empty sequence of set
operations) has zero generator children, while the claim demands exactly
one direct child of each singleton kind, generator included, at all
times. -/
theorem C3_singleton_invariant_counterexample :
    countMeta (applyOps (feedInit none "u" "t" 10 (-1) false) [])
      "generator" = 0 := rfl

/-- C8 (corrected).  The claim says load re-applies all three of id,
link[rel=self] and title.  In the source set_id runs before
minidom.parse replaces the document, so on a successful load the feed
keeps the file's id (which is what keeps dedup working, since stored
entry ids are prefixed with it): see the counterexample.  Amended claim:
after a successful load, link[rel=self] and title are re-applied so they
equal the values supplied for this run, the loaded entries are kept, and
the feed's id element keeps the file's value (the supplied URI becomes
the id only when the file is absent or fails to parse). -/
theorem C8_load_reapplies (cs : List Child) (u t : String)
    (mi mt : Int) (st : Bool)
    (hl : countMeta (Feed.mk cs mi mt st) "link" ≤ 1)
    (ht : countMeta (Feed.mk cs mi mt st) "title" ≤ 1) :
    firstMeta (feedInit (some (Except.ok cs)) u t mi mt st) "title"
        = some ⟨"title", [], t⟩
    ∧ firstMeta (feedInit (some (Except.ok cs)) u t mi mt st) "link"
        = some ⟨"link", [("rel", "self"), ("href", u)], ""⟩
    ∧ firstMeta (feedInit (some (Except.ok cs)) u t mi mt st) "id"
        = firstMeta (Feed.mk cs mi mt st) "id"
    ∧ entriesOf (feedInit (some (Except.ok cs)) u t mi mt st)
        = entriesOfList cs := by
  have hred : feedInit (some (Except.ok cs)) u t mi mt st
      = replace_element
          (replace_element (Feed.mk cs mi mt st)
            ⟨"link", [("rel", "self"), ("href", u)], ""⟩)
          ⟨"title", [], t⟩ := rfl
  rw [hred]
  have hlink2 : countMeta
      (replace_element (Feed.mk cs mi mt st)
        ⟨"link", [("rel", "self"), ("href", u)], ""⟩) "title" ≤ 1 := by
    rw [countMeta_replace_other _ _ (show ("title" : String) ≠ "link"
      by decide)]
    exact ht
  refine ⟨?_, ?_, ?_, ?_⟩
  · exact firstMeta_replace_self _ _ hlink2
  · rw [firstMeta_replace_other _ _ (show ("link" : String) ≠ "title"
      by decide)]
    exact firstMeta_replace_self _ _ hl
  · rw [firstMeta_replace_other _ _ (show ("id" : String) ≠ "title"
      by decide),
      firstMeta_replace_other _ _ (show ("id" : String) ≠ "link"
      by decide)]
  · rw [entriesOf_replace, entriesOf_replace]
    rfl

theorem C8_load_reapplies_witness :
    firstMeta (feedInit
        (some (Except.ok [Child.meta ⟨"id", [], "OLD"⟩,
          Child.entry (entryAt "e" "2007-01-02T03:04:05+00")]))
        "NEW" "T" 10 (-1) false) "title" = some ⟨"title", [], "T"⟩
    ∧ firstMeta (feedInit
        (some (Except.ok [Child.meta ⟨"id", [], "OLD"⟩,
          Child.entry (entryAt "e" "2007-01-02T03:04:05+00")]))
        "NEW" "T" 10 (-1) false) "link"
        = some ⟨"link", [("rel", "self"), ("href", "NEW")], ""⟩
    ∧ firstMeta (feedInit
        (some (Except.ok [Child.meta ⟨"id", [], "OLD"⟩,
          Child.entry (entryAt "e" "2007-01-02T03:04:05+00")]))
        "NEW" "T" 10 (-1) false) "id"
        = firstMeta (Feed.mk [Child.meta ⟨"id", [], "OLD"⟩,
            Child.entry (entryAt "e" "2007-01-02T03:04:05+00")]
            10 (-1) false) "id"
    ∧ entriesOf (feedInit
        (some (Except.ok [Child.meta ⟨"id", [], "OLD"⟩,
          Child.entry (entryAt "e" "2007-01-02T03:04:05+00")]))
        "NEW" "T" 10 (-1) false)
        = entriesOfList [Child.meta ⟨"id", [], "OLD"⟩,
            Child.entry (entryAt "e" "2007-01-02T03:04:05+00")] :=
  C8_load_reapplies _ "NEW" "T" 10 (-1) false (by decide) (by decide)

/-- C8 counterexample: a file whose stored feed id is OLD, loaded with
the supplied URI NEW, yields a feed whose id element text is still OLD,
while the claim says the id is re-applied to equal the supplied value. -/
theorem C8_load_reapplies_counterexample :
    feedId (feedInit (some (Except.ok [Child.meta ⟨"id", [], "OLD"⟩]))
        "NEW" "T" 10 (-1) false) = Except.ok "OLD"
      ∧ "OLD" ≠ "NEW" := ⟨rfl, by decide⟩

/-!
## Lemmas about the ingestion loop and trimming
-/

theorem findMeta_append_entry (cs : List Child) (e : Entry)
    (tag : String) :
    findMeta (cs ++ [Child.entry e]) tag = findMeta cs tag := by
  simp [findMeta, List.find?_append, isMetaTag]

theorem feedId_append_entry (f : Feed) (e : Entry) :
    feedId { f with children := f.children ++ [Child.entry e] }
      = feedId f := by
  simp only [feedId, firstMeta_eq_findMeta]
  rw [findMeta_append_entry]

theorem contains_message_eval {digest : String → String} {f : Feed}
    {fid : String} (hfid : feedId f = Except.ok fid) (m : Message) :
    contains_message digest f m
      = Except.ok ((entriesOf f).any
          (fun e => e.idText == fid ++ "#" ++ message_id digest m)) := by
  simp only [contains_message]
  rw [hfid]
  rfl

theorem add_message_inv {digest dec : String → String}
    {pa : String → String × String} {pd : ParsedateFn} {f : Feed}
    {fid : String} {m : Message} {now : DateTime} {f2 : Feed}
    (hfid : feedId f = Except.ok fid)
    (h : add_message digest dec pa pd f m now = Except.ok f2) :
    ∃ e, mkEntryCore digest dec pa pd fid f.strip_subject m now
          = Except.ok e
      ∧ f2 = { f with children := f.children ++ [Child.entry e] } := by
  simp only [add_message, mkEntry] at h
  rw [hfid] at h
  cases hc : mkEntryCore digest dec pa pd fid f.strip_subject m now with
  | error u =>
    rw [show (do
        let fid2 ← Except.ok fid
        mkEntryCore digest dec pa pd fid2 f.strip_subject m now)
        = mkEntryCore digest dec pa pd fid f.strip_subject m now
        from rfl, hc] at h
    exact Except.noConfusion h
  | ok e =>
    rw [show (do
        let fid2 ← Except.ok fid
        mkEntryCore digest dec pa pd fid2 f.strip_subject m now)
        = mkEntryCore digest dec pa pd fid f.strip_subject m now
        from rfl, hc] at h
    cases h
    exact ⟨e, rfl, rfl⟩

theorem ingest_source {digest dec : String → String}
    {pa : String → String × String} {pd : ParsedateFn} {now : DateTime} :
    ∀ (msgs : List Message) (f : Feed) (count : Nat) (fid : String)
      (f2 : Feed) (c2 : Nat),
    feedId f = Except.ok fid →
    ingestLoop digest dec pa pd now f msgs count = Except.ok (f2, c2) →
    ∀ e ∈ entriesOf f2, e ∈ entriesOf f
      ∨ ∃ m ∈ msgs,
          mkEntryCore digest dec pa pd fid f.strip_subject m now
            = Except.ok e := by
  intro msgs
  induction msgs with
  | nil =>
    intro f count fid f2 c2 hfid h
    cases h
    intro e he
    exact Or.inl he
  | cons m rest ih =>
    intro f count fid f2 c2 hfid h
    rw [show ingestLoop digest dec pa pd now f (m :: rest) count
        = (do
            let c ← contains_message digest f m
            if c then Except.ok (f, count)
            else do
              let fn ← add_message digest dec pa pd f m now
              if fn.max_items > 0 ∧ (count + 1 : Int) > fn.max_items then
                Except.ok (fn, count + 1)
              else ingestLoop digest dec pa pd now fn rest (count + 1))
        from rfl, contains_message_eval hfid m] at h
    replace h : (if ((entriesOf f).any
          (fun e => e.idText == fid ++ "#" ++ message_id digest m)) then
        Except.ok (f, count)
      else do
        let fn ← add_message digest dec pa pd f m now
        if fn.max_items > 0 ∧ (count + 1 : Int) > fn.max_items then
          Except.ok (fn, count + 1)
        else ingestLoop digest dec pa pd now fn rest (count + 1))
        = Except.ok (f2, c2) := h
    by_cases hb : (entriesOf f).any
        (fun e => e.idText == fid ++ "#" ++ message_id digest m)
    · rw [if_pos hb] at h
      cases h
      intro e he
      exact Or.inl he
    · rw [if_neg hb] at h
      cases ha : add_message digest dec pa pd f m now with
      | error u => rw [ha] at h; exact Except.noConfusion h
      | ok fn =>
        rw [ha] at h
        obtain ⟨enew, hcore, hfn⟩ := add_message_inv hfid ha
        have hentries : entriesOf fn = entriesOf f ++ [enew] := by
          rw [hfn]
          simp [entriesOf, entriesOfList_append, entriesOfList]
        have hfid2 : feedId fn = Except.ok fid := by
          rw [hfn, feedId_append_entry]
          exact hfid
        have hstrip : fn.strip_subject = f.strip_subject := by
          rw [hfn]
        replace h : (if fn.max_items > 0 ∧ (count + 1 : Int)
              > fn.max_items then
            Except.ok (fn, count + 1)
          else ingestLoop digest dec pa pd now fn rest (count + 1))
            = Except.ok (f2, c2) := h
        by_cases hcap : fn.max_items > 0 ∧ (count + 1 : Int)
            > fn.max_items
        · rw [if_pos hcap] at h
          cases h
          intro e he
          rw [hentries] at he
          rcases List.mem_append.mp he with hl | hr
          · exact Or.inl hl
          · refine Or.inr ⟨m, List.mem_cons_self m rest, ?_⟩
            rw [List.mem_singleton.mp hr]
            exact hcore
        · rw [if_neg hcap] at h
          intro e he
          rcases ih fn (count + 1) fid f2 c2 hfid2 h e he with hl | hr
          · rw [hentries] at hl
            rcases List.mem_append.mp hl with h1 | h2
            · exact Or.inl h1
            · refine Or.inr ⟨m, List.mem_cons_self m rest, ?_⟩
              rw [List.mem_singleton.mp h2]
              exact hcore
          · obtain ⟨m2, hm2, hc2⟩ := hr
            rw [hstrip] at hc2
            exact Or.inr ⟨m2, List.mem_cons_of_mem m hm2, hc2⟩

theorem entriesOfList_filterIdx (keep : List Nat) :
    ∀ (cs : List Child) (k : Nat),
    entriesOfList (filterEntriesByIdx keep cs k)
      = (((entriesOfList cs).enumFrom k).filter
          (fun p => keep.contains p.1)).map Prod.snd := by
  intro cs
  induction cs with
  | nil => intro k; rfl
  | cons c rest ih =>
    intro k
    cases c with
    | meta m =>
      rw [show filterEntriesByIdx keep (Child.meta m :: rest) k
          = Child.meta m :: filterEntriesByIdx keep rest k from rfl]
      rw [show entriesOfList (Child.meta m
          :: filterEntriesByIdx keep rest k)
          = entriesOfList (filterEntriesByIdx keep rest k) from rfl]
      rw [show entriesOfList (Child.meta m :: rest)
          = entriesOfList rest from rfl]
      exact ih k
    | entry e =>
      rw [show entriesOfList (Child.entry e :: rest)
          = e :: entriesOfList rest from rfl]
      rw [show (e :: entriesOfList rest).enumFrom k
          = (k, e) :: (entriesOfList rest).enumFrom (k + 1) from rfl]
      by_cases hk : keep.contains k
      · have hk2 : k ∈ keep := by simpa using hk
        rw [show filterEntriesByIdx keep (Child.entry e :: rest) k
            = Child.entry e :: filterEntriesByIdx keep rest (k + 1)
            by simp [filterEntriesByIdx, hk2]]
        rw [show entriesOfList (Child.entry e
            :: filterEntriesByIdx keep rest (k + 1))
            = e :: entriesOfList (filterEntriesByIdx keep rest (k + 1))
            from rfl]
        rw [ih (k + 1), List.filter_cons]
        simp [hk2]
      · rw [Bool.not_eq_true] at hk
        have hk2 : ¬ k ∈ keep := by simpa using hk
        rw [show filterEntriesByIdx keep (Child.entry e :: rest) k
            = filterEntriesByIdx keep rest (k + 1)
            by simp [filterEntriesByIdx, hk2]]
        rw [ih (k + 1), List.filter_cons]
        simp [hk2]

theorem trim_entries_inv {now : DateTime} {f g : Feed}
    (h : trim_entries now f = Except.ok g) :
    ∃ s a, trimSort f = Except.ok s
      ∧ trimAge now f (trimCap f s) = Except.ok a
      ∧ g = { f with children :=
          filterEntriesByIdx (a.map (fun p => p.1)) f.children 0 } := by
  simp only [trim_entries] at h
  cases hs : trimSort f with
  | error u => rw [hs] at h; exact Except.noConfusion h
  | ok s =>
    rw [hs] at h
    replace h : Except.bind (trimAge now f (trimCap f s))
        (fun afterAge =>
          Except.ok (Feed.mk
            (filterEntriesByIdx (afterAge.map (fun p => p.1))
              f.children 0)
            f.max_items f.max_time f.strip_subject))
        = Except.ok g := h
    cases ha : trimAge now f (trimCap f s) with
    | error u =>
      rw [ha] at h
      exact Except.noConfusion h
    | ok a =>
      rw [ha] at h
      cases h
      exact ⟨s, a, rfl, ha, rfl⟩

theorem trim_entries_subset {now : DateTime} {f g : Feed}
    (h : trim_entries now f = Except.ok g) :
    ∀ e ∈ entriesOf g, e ∈ entriesOf f := by
  obtain ⟨s, a, _, _, hg⟩ := trim_entries_inv h
  intro e he
  rw [hg] at he
  replace he : e ∈ entriesOfList
      (filterEntriesByIdx (a.map (fun p => p.1)) f.children 0) := he
  rw [entriesOfList_filterIdx] at he
  obtain ⟨p, hp, hpe⟩ := List.mem_map.mp he
  have hpmem := (List.mem_filter.mp hp).1
  obtain ⟨_, _, hx⟩ := List.mem_enumFrom hpmem
  rw [← hpe, hx]
  exact List.getElem_mem _

theorem save_inv {trimNow : DateTime} {f g : Feed}
    (h : save trimNow f = Except.ok g) :
    ∀ e ∈ entriesOf g, e ∈ entriesOf f := by
  intro e he
  have := trim_entries_subset h e he
  rwa [entriesOf_set_generator] at this

theorem mainRun_inv {digest dec : String → String}
    {pa : String → String × String} {pd : ParsedateFn}
    {fileDoc : Option (Except Unit (List Child))} {uri title : String}
    {mi mt : Int} {st : Bool} {msgs : List Message} {now trimNow : DateTime}
    {g : Feed}
    (h : mainRun digest dec pa pd fileDoc uri title mi mt st msgs
        now trimNow = Except.ok g) :
    ∃ u r, feedUpdated (feedInit fileDoc uri title mi mt st) = Except.ok u
      ∧ ingestLoop digest dec pa pd now
          (feedInit fileDoc uri title mi mt st) msgs 0 = Except.ok r
      ∧ save trimNow (set_updated r.1 now) = Except.ok g := by
  simp only [mainRun] at h
  cases hu : feedUpdated (feedInit fileDoc uri title mi mt st) with
  | error u => rw [hu] at h; exact Except.noConfusion h
  | ok u =>
    rw [hu] at h
    replace h : (if mt > 0 ∧ (naiveKey now - mt * 60000000
          < naiveKey minSentinel ∨ now.tz = none) then
        (Except.error () : Except Unit Feed)
      else do
        let r ← ingestLoop digest dec pa pd now
          (feedInit fileDoc uri title mi mt st) msgs 0
        save trimNow (set_updated r.1 now)) = Except.ok g := h
    by_cases hmt : mt > 0 ∧ (naiveKey now - mt * 60000000
        < naiveKey minSentinel ∨ now.tz = none)
    · rw [if_pos hmt] at h
      exact Except.noConfusion h
    · rw [if_neg hmt] at h
      cases hr : ingestLoop digest dec pa pd now
          (feedInit fileDoc uri title mi mt st) msgs 0 with
      | error u2 => rw [hr] at h; exact Except.noConfusion h
      | ok r =>
        rw [hr] at h
        exact ⟨u, r, rfl, rfl, h⟩

/-!
## Claim theorem: corrupt-feed recovery
-/

/-- C4 (confirmed).  A target file whose contents fail to parse yields
exactly the brand-new empty feed (the bare except keeps the fresh
document built before the parse attempt, so the parse error never
propagates), and a subsequent full run saves a freshly-initialized feed
whose every entry was built from one of this run's messages. -/
theorem C4_corrupt_recovery :
    (∀ (u t : String) (mi mt : Int) (st : Bool),
      feedInit (some (Except.error ())) u t mi mt st
        = feedInit none u t mi mt st)
    ∧ (∀ (u t : String) (mi mt : Int) (st : Bool),
      entriesOf (feedInit (some (Except.error ())) u t mi mt st) = [])
    ∧ (∀ (digest dec : String → String) (pa : String → String × String)
        (pd : ParsedateFn) (u t : String) (mi mt : Int) (st : Bool)
        (msgs : List Message) (now trimNow : DateTime) (g : Feed),
      mainRun digest dec pa pd (some (Except.error ())) u t mi mt st
          msgs now trimNow = Except.ok g →
      ∀ e ∈ entriesOf g, ∃ m ∈ msgs,
        mkEntryCore digest dec pa pd u st m now = Except.ok e) := by
  refine ⟨fun u t mi mt st => rfl, fun u t mi mt st => rfl, ?_⟩
  intro digest dec pa pd u t mi mt st msgs now trimNow g h e he
  obtain ⟨u2, r, hu, hr, hsave⟩ := mainRun_inv h
  have hsub := save_inv hsave e he
  rw [entriesOf_set_updated] at hsub
  have hfid : feedId (feedInit (some (Except.error ())) u t mi mt st)
      = Except.ok u := rfl
  have hprov := ingest_source msgs
    (feedInit (some (Except.error ())) u t mi mt st) 0 u r.1 r.2 hfid
    hr e hsub
  rcases hprov with hl | hr2
  · replace hl : e ∈ ([] : List Entry) := hl
    cases hl
  · exact hr2

theorem C4_corrupt_recovery_witness :
    ∃ m ∈ [msgDateEx],
      mkEntryCore digestId decId paEx pdEx "u" false m nowEx
        = Except.ok eC4 :=
  C4_corrupt_recovery.2.2 digestId decId paEx pdEx "u" "t" 10 (-1) false
    [msgDateEx] nowEx trimNowEx gC4 (by rfl) eC4 (by decide)

/-!
## The ingestion loop on a fresh prefix
-/

theorem str_append_left_inj {a b c : String} (h : a ++ b = a ++ c) :
    b = c := by
  have h2 := congrArg String.data h
  simp only [String.data_append] at h2
  exact String.ext (List.append_cancel_left h2)

theorem findMeta_append_entries (cs : List Child) (es : List Entry)
    (tag : String) :
    findMeta (cs ++ es.map Child.entry) tag = findMeta cs tag := by
  simp only [findMeta, List.find?_append]
  rw [show List.find? (isMetaTag tag) (es.map Child.entry) = none by
    rw [List.find?_eq_none]
    intro x hx
    obtain ⟨e, _, he⟩ := List.mem_map.mp hx
    rw [← he]
    simp [isMetaTag]]
  cases List.find? (isMetaTag tag) cs <;> rfl

theorem feedId_append_entries (f : Feed) (es : List Entry) (mi mt : Int)
    (st : Bool) :
    feedId (Feed.mk (f.children ++ es.map Child.entry) mi mt st)
      = feedId f := by
  simp only [feedId, firstMeta_eq_findMeta]
  rw [findMeta_append_entries]

theorem entriesOfList_append_entries (cs : List Child)
    (es : List Entry) :
    entriesOfList (cs ++ es.map Child.entry) = entriesOfList cs ++ es := by
  rw [entriesOfList_append]
  congr 1
  induction es with
  | nil => rfl
  | cons e rest ih =>
    rw [show (e :: rest).map Child.entry
        = Child.entry e :: rest.map Child.entry from rfl,
      show entriesOfList (Child.entry e :: rest.map Child.entry)
        = e :: entriesOfList (rest.map Child.entry) from rfl, ih]

theorem add_message_eval {digest dec : String → String}
    {pa : String → String × String} {pd : ParsedateFn} {f : Feed}
    {fid : String} {m : Message} {now : DateTime} {e : Entry}
    (hfid : feedId f = Except.ok fid)
    (hcore : mkEntryCore digest dec pa pd fid f.strip_subject m now
      = Except.ok e) :
    add_message digest dec pa pd f m now
      = Except.ok (Feed.mk (f.children ++ [Child.entry e])
          f.max_items f.max_time f.strip_subject) := by
  have h1 : mkEntry digest dec pa pd f m now = Except.ok e := by
    simp only [mkEntry]
    rw [hfid]
    exact hcore
  simp only [add_message]
  rw [h1]
  rfl

/-- Processing a prefix of messages that are all fresh (their derived
entry ids are absent from the feed and pairwise distinct), all dateable,
and that fit under the cap, appends exactly their entries in order and
continues with the rest of the source. -/
theorem ingest_fresh_prefix {digest dec : String → String}
    {pa : String → String × String} {pd : ParsedateFn} {now : DateTime}
    {fid : String} :
    ∀ (pre : List Message) (f : Feed) (count : Nat),
    feedId f = Except.ok fid →
    (∀ m ∈ pre, ¬ (fid ++ "#" ++ message_id digest m)
        ∈ (entriesOf f).map Entry.idText) →
    (pre.map (message_id digest)).Pairwise (fun a b => a ≠ b) →
    (∀ m ∈ pre, ∃ d, message_date pd m = Except.ok d) →
    (f.max_items ≤ 0 ∨ (count : Int) + pre.length ≤ f.max_items) →
    ∃ es, pre.mapM (fun m =>
        mkEntryCore digest dec pa pd fid f.strip_subject m now)
        = Except.ok es
      ∧ es.map Entry.idText
          = pre.map (fun m => fid ++ "#" ++ message_id digest m)
      ∧ ∀ rest, ingestLoop digest dec pa pd now f (pre ++ rest) count
          = ingestLoop digest dec pa pd now
              (Feed.mk (f.children ++ es.map Child.entry)
                f.max_items f.max_time f.strip_subject)
              rest (count + pre.length) := by
  intro pre
  induction pre with
  | nil =>
    intro f count hfid hfresh hdist hdates hcap
    refine ⟨[], rfl, rfl, ?_⟩
    intro rest
    rw [show Feed.mk (f.children ++ List.map Child.entry [])
        f.max_items f.max_time f.strip_subject = f by simp]
    rfl
  | cons p pre2 ih =>
    intro f count hfid hfresh hdist hdates hcap
    obtain ⟨d, hd⟩ := hdates p (List.mem_cons_self p pre2)
    obtain ⟨e, hcore⟩ :=
      @mkEntryCore_ok digest dec pa pd fid f.strip_subject p now d hd
    have hid : e.idText = fid ++ "#" ++ message_id digest p :=
      mkEntryCore_idText hcore
    have hadd := add_message_eval hfid hcore
    have hfreshp := hfresh p (List.mem_cons_self p pre2)
    have hany : ((entriesOf f).any (fun x =>
        x.idText == fid ++ "#" ++ message_id digest p)) = false := by
      rw [List.any_eq_false]
      intro x hx
      simp only [beq_iff_eq]
      intro hxeq
      exact hfreshp (List.mem_map.mpr ⟨x, hx, hxeq⟩)
    set f2 : Feed := Feed.mk (f.children ++ [Child.entry e])
      f.max_items f.max_time f.strip_subject with hf2
    have hfid2 : feedId f2 = Except.ok fid := by
      rw [hf2, show [Child.entry e] = ([e] : List Entry).map Child.entry
        from rfl, feedId_append_entries]
      exact hfid
    have hentries2 : entriesOf f2 = entriesOf f ++ [e] := by
      rw [hf2]
      exact entriesOfList_append_entries f.children [e]
    have hcap2 : f2.max_items ≤ 0
        ∨ ((count + 1 : Nat) : Int) + pre2.length ≤ f2.max_items := by
      rcases hcap with h | h
      · exact Or.inl h
      · refine Or.inr ?_
        rw [show f2.max_items = f.max_items from rfl]
        rw [show ((p :: pre2).length : Int) = (pre2.length : Int) + 1 by
          simp] at h
        push_cast
        omega
    have hfresh2 : ∀ m ∈ pre2, ¬ (fid ++ "#" ++ message_id digest m)
        ∈ (entriesOf f2).map Entry.idText := by
      intro m hm hmem
      rw [hentries2, List.map_append] at hmem
      rcases List.mem_append.mp hmem with hl | hr
      · exact hfresh m (List.mem_cons_of_mem p hm) hl
      · rw [show ([e] : List Entry).map Entry.idText = [e.idText]
          from rfl, hid, List.mem_singleton] at hr
        have hne : message_id digest m ≠ message_id digest p := by
          have hpw := (List.pairwise_cons.mp hdist).1
            (message_id digest m) (List.mem_map.mpr ⟨m, hm, rfl⟩)
          exact fun hc => hpw (by rw [hc])
        exact hne (str_append_left_inj hr)
    have hdist2 : (pre2.map (message_id digest)).Pairwise
        (fun a b => a ≠ b) := (List.pairwise_cons.mp hdist).2
    have hdates2 : ∀ m ∈ pre2, ∃ d2, message_date pd m = Except.ok d2 :=
      fun m hm => hdates m (List.mem_cons_of_mem p hm)
    obtain ⟨es2, hmap2, hids2, hloop2⟩ :=
      ih f2 (count + 1) hfid2 hfresh2 hdist2 hdates2 hcap2
    have hstrip2 : f2.strip_subject = f.strip_subject := rfl
    refine ⟨e :: es2, ?_, ?_, ?_⟩
    · rw [List.mapM_cons, hcore]
      rw [hstrip2] at hmap2
      rw [hmap2]
      rfl
    · rw [show (e :: es2).map Entry.idText
          = e.idText :: es2.map Entry.idText from rfl, hid, hids2]
      rfl
    · intro rest
      have hnocap : ¬ (f2.max_items > 0
          ∧ (count + 1 : Int) > f2.max_items) := by
        rcases hcap with h | h
        · rw [show f2.max_items = f.max_items from rfl]
          omega
        · rw [show f2.max_items = f.max_items from rfl]
          rw [show ((p :: pre2).length : Int) = (pre2.length : Int) + 1 by
            simp] at h
          intro hc
          have hlen : (0 : Int) ≤ pre2.length := by positivity
          omega
      have step1 : ingestLoop digest dec pa pd now f
          ((p :: pre2) ++ rest) count
          = ingestLoop digest dec pa pd now f2 (pre2 ++ rest)
            (count + 1) := by
        rw [show (p :: pre2) ++ rest = p :: (pre2 ++ rest) from rfl]
        rw [show ingestLoop digest dec pa pd now f (p :: (pre2 ++ rest))
            count
            = Except.bind (contains_message digest f p) (fun c =>
                if c then Except.ok (f, count)
                else Except.bind (add_message digest dec pa pd f p now)
                  (fun fn =>
                    if fn.max_items > 0
                        ∧ (count + 1 : Int) > fn.max_items then
                      Except.ok (fn, count + 1)
                    else ingestLoop digest dec pa pd now fn
                      (pre2 ++ rest) (count + 1)))
            from rfl, contains_message_eval hfid p, hany]
        show Except.bind (add_message digest dec pa pd f p now)
            (fun fn =>
              if fn.max_items > 0 ∧ (count + 1 : Int) > fn.max_items then
                Except.ok (fn, count + 1)
              else ingestLoop digest dec pa pd now fn
                (pre2 ++ rest) (count + 1))
            = ingestLoop digest dec pa pd now f2 (pre2 ++ rest)
              (count + 1)
        rw [hadd]
        show (if f2.max_items > 0 ∧ (count + 1 : Int) > f2.max_items then
            Except.ok (f2, count + 1)
          else ingestLoop digest dec pa pd now f2 (pre2 ++ rest)
            (count + 1))
            = ingestLoop digest dec pa pd now f2 (pre2 ++ rest)
              (count + 1)
        rw [if_neg hnocap]
      rw [step1, hloop2 rest]
      congr 1
      · rw [show f2.children = f.children ++ [Child.entry e] from rfl,
          show f2.max_items = f.max_items from rfl,
          show f2.max_time = f.max_time from rfl,
          show f2.strip_subject = f.strip_subject from rfl,
          List.append_assoc]
        rfl
      · rw [show (p :: pre2).length = pre2.length + 1 from rfl]
        omega

/-!
## Claim theorems: dedup stop
-/

/-- C1 (corrected).  The claim states the stopping rule unconditionally,
but the per-run item cap (lines 607-609) can stop the loop before the
first already-contained message is reached, leaving an earlier fresh
message unappended: see the counterexample.  Amended claim: provided the
item cap does not fire first (maxItems ≤ 0, or at most maxItems fresh
messages precede m), ingestion processes messages in order, appends
every fresh message before the first message m whose derived entryId is
already contained in the feed, stops at m, and never inspects or appends
any message after m (the result is the same for every tail after m). -/
theorem C1_dedup_stop (digest dec : String → String)
    (pa : String → String × String) (pd : ParsedateFn) (now : DateTime)
    (f : Feed) (fid : String) (pre : List Message) (m : Message)
    (hfid : feedId f = Except.ok fid)
    (hfresh : ∀ p ∈ pre, ¬ (fid ++ "#" ++ message_id digest p)
        ∈ (entriesOf f).map Entry.idText)
    (hdist : (pre.map (message_id digest)).Pairwise (fun a b => a ≠ b))
    (hdates : ∀ p ∈ pre, ∃ d, message_date pd p = Except.ok d)
    (hcap : f.max_items ≤ 0 ∨ (pre.length : Int) ≤ f.max_items)
    (hm : (fid ++ "#" ++ message_id digest m)
        ∈ (entriesOf f).map Entry.idText) :
    ∃ es, pre.mapM (fun p =>
        mkEntryCore digest dec pa pd fid f.strip_subject p now)
        = Except.ok es
      ∧ es.map Entry.idText
          = pre.map (fun p => fid ++ "#" ++ message_id digest p)
      ∧ ∀ post, ingestLoop digest dec pa pd now f (pre ++ m :: post) 0
          = Except.ok (Feed.mk (f.children ++ es.map Child.entry)
              f.max_items f.max_time f.strip_subject, pre.length) := by
  have hcap0 : f.max_items ≤ 0
      ∨ ((0 : Nat) : Int) + pre.length ≤ f.max_items := by
    rcases hcap with h | h
    · exact Or.inl h
    · refine Or.inr ?_; push_cast; omega
  obtain ⟨es, hmap, hids, hloop⟩ :=
    ingest_fresh_prefix pre f 0 hfid hfresh hdist hdates hcap0
  refine ⟨es, hmap, hids, ?_⟩
  intro post
  rw [hloop (m :: post)]
  set F2 : Feed := Feed.mk (f.children ++ es.map Child.entry)
    f.max_items f.max_time f.strip_subject with hF2
  have hfid2 : feedId F2 = Except.ok fid := by
    rw [hF2, feedId_append_entries]
    exact hfid
  have hentries2 : entriesOf F2 = entriesOf f ++ es := by
    rw [hF2]
    exact entriesOfList_append_entries f.children es
  have hany : ((entriesOf F2).any (fun x =>
      x.idText == fid ++ "#" ++ message_id digest m)) = true := by
    rw [List.any_eq_true]
    obtain ⟨x, hx, hxid⟩ := List.mem_map.mp hm
    refine ⟨x, ?_, by simp [hxid]⟩
    rw [hentries2]
    exact List.mem_append.mpr (Or.inl hx)
  rw [Nat.zero_add]
  rw [show ingestLoop digest dec pa pd now F2 (m :: post) pre.length
      = Except.bind (contains_message digest F2 m) (fun c =>
          if c then Except.ok (F2, pre.length)
          else Except.bind (add_message digest dec pa pd F2 m now)
            (fun fn =>
              if fn.max_items > 0
                  ∧ (pre.length + 1 : Int) > fn.max_items then
                Except.ok (fn, pre.length + 1)
              else ingestLoop digest dec pa pd now fn post
                (pre.length + 1)))
      from rfl, contains_message_eval hfid2 m, hany]
  rfl

theorem C1_dedup_stop_witness :
    ingestLoop digestId decId paEx pdNone nowEx fdC1
        [msgSub "a", msgSub "d"] 0
      = Except.ok (Feed.mk (fdC1.children ++ [Child.entry eC1a])
          1 (-1) false, 1) := by
  obtain ⟨es, hmap, hids, hloop⟩ := C1_dedup_stop digestId decId paEx
    pdNone nowEx fdC1 "F" [msgSub "a"] (msgSub "d") rfl
    (by decide) (by decide)
    (fun p hp => ⟨minSentinel, by
      rw [List.mem_singleton.mp hp]
      rfl⟩)
    (Or.inr (by decide)) (by decide)
  have h2 : ([msgSub "a"]).mapM (fun p =>
      mkEntryCore digestId decId paEx pdNone "F" fdC1.strip_subject p
        nowEx) = Except.ok [eC1a] := rfl
  injection hmap.symm.trans h2 with h3
  have h4 := hloop []
  rw [h3] at h4
  exact h4

/-- C1 counterexample: with maxItems = 1 and source a, b, c, d where only
d is already contained, the loop adds a and b, stops at the cap, and
never appends c — although c is fresh and precedes the first
already-contained message d, refuting the unconditional stopping rule
(which asserts every fresh message before d is appended). -/
theorem C1_dedup_stop_counterexample :
    (ingestLoop digestId decId paEx pdNone nowEx fdC1
        [msgSub "a", msgSub "b", msgSub "c", msgSub "d"] 0).map
        (fun r => ((entriesOf r.1).map Entry.idText, r.2))
      = Except.ok (["F#dD", "F#aD", "F#bD"], 2) := by rfl

/-!
## Lemmas about the trim sort
-/

theorem insLe_perm {α : Type} (le : α → α → Bool) (x : α)
    (l : List α) : (insLe le x l).Perm (x :: l) := by
  induction l with
  | nil => exact List.Perm.refl _
  | cons y ys ih =>
    simp only [insLe]
    split
    · exact List.Perm.refl _
    · exact (List.Perm.cons y ih).trans (List.Perm.swap x y ys)

theorem insSort_perm {α : Type} (le : α → α → Bool) (l : List α) :
    (insSort le l).Perm l := by
  induction l with
  | nil => exact List.Perm.refl _
  | cons x xs ih =>
    exact (insLe_perm le x (insSort le xs)).trans (List.Perm.cons x ih)

theorem insLe_pairwise {α : Type} {le : α → α → Bool}
    (htr : ∀ a b c, le a b = true → le b c = true → le a c = true)
    (hto : ∀ a b, (le a b || le b a) = true)
    (x : α) (l : List α)
    (hl : l.Pairwise (fun a b => le a b = true)) :
    (insLe le x l).Pairwise (fun a b => le a b = true) := by
  induction l with
  | nil => exact List.pairwise_singleton _ _
  | cons y ys ih =>
    rcases List.pairwise_cons.mp hl with ⟨hy, hys⟩
    simp only [insLe]
    split
    next hxy =>
      refine List.pairwise_cons.mpr ⟨?_, hl⟩
      intro z hz
      rcases List.mem_cons.mp hz with rfl | hz2
      · exact hxy
      · exact htr x y z hxy (hy z hz2)
    next hxy =>
      have hyx : le y x = true := by
        have h2 := hto x y
        cases h1 : le x y
        · rw [h1] at h2
          simpa using h2
        · exact absurd h1 hxy
      refine List.pairwise_cons.mpr ⟨?_, ih hys⟩
      intro z hz
      rcases List.mem_cons.mp ((insLe_perm le x ys).mem_iff.mp hz)
          with rfl | hz2
      · exact hyx
      · exact hy z hz2

theorem sorted_insSort {α : Type} {le : α → α → Bool}
    (htr : ∀ a b c, le a b = true → le b c = true → le a c = true)
    (hto : ∀ a b, (le a b || le b a) = true) (l : List α) :
    (insSort le l).Pairwise (fun a b => le a b = true) := by
  induction l with
  | nil => exact List.Pairwise.nil
  | cons x xs ih => exact insLe_pairwise htr hto x (insSort le xs) ih

theorem trimLe_trans (a b c : (Nat × Entry) × DateTime)
    (hab : trimLe a b = true) (hbc : trimLe b c = true) :
    trimLe a c = true := by
  simp only [trimLe, Bool.or_eq_true, Bool.and_eq_true,
    decide_eq_true_eq, beq_iff_eq] at *
  omega

theorem trimLe_total (a b : (Nat × Entry) × DateTime) :
    (trimLe a b || trimLe b a) = true := by
  simp only [trimLe, Bool.or_eq_true, Bool.and_eq_true,
    decide_eq_true_eq, beq_iff_eq]
  omega

theorem mapM_entry_date_cons {e : Entry} {es : List Entry}
    {ds : List DateTime}
    (h : (e :: es).mapM entry_date = Except.ok ds) :
    ∃ d ds2, entry_date e = Except.ok d
      ∧ es.mapM entry_date = Except.ok ds2 ∧ ds = d :: ds2 := by
  rw [List.mapM_cons] at h
  cases hd : entry_date e with
  | error u => rw [hd] at h; exact Except.noConfusion h
  | ok d =>
    rw [hd] at h
    replace h : Except.bind (es.mapM entry_date)
        (fun ds2 => Except.ok (d :: ds2)) = Except.ok ds := h
    cases hm : es.mapM entry_date with
    | error u => rw [hm] at h; exact Except.noConfusion h
    | ok ds2 =>
      rw [hm] at h
      cases h
      exact ⟨d, ds2, rfl, rfl, rfl⟩

theorem mapM_entry_date_ok :
    ∀ (es : List Entry), (∀ e ∈ es, ∃ d, entry_date e = Except.ok d) →
    ∃ ds, es.mapM entry_date = Except.ok ds := by
  intro es
  induction es with
  | nil => intro h; exact ⟨[], rfl⟩
  | cons e rest ih =>
    intro h
    obtain ⟨d, hd⟩ := h e (List.mem_cons_self e rest)
    obtain ⟨ds2, hds2⟩ := ih (fun x hx => h x (List.mem_cons_of_mem e hx))
    refine ⟨d :: ds2, ?_⟩
    rw [List.mapM_cons, hd]
    show Except.bind (rest.mapM entry_date)
        (fun l => Except.ok (d :: l)) = Except.ok (d :: ds2)
    rw [hds2]
    rfl

theorem mapM_entry_date_length :
    ∀ {es : List Entry} {ds : List DateTime},
    es.mapM entry_date = Except.ok ds → ds.length = es.length := by
  intro es
  induction es with
  | nil =>
    intro ds h
    cases h
    rfl
  | cons e rest ih =>
    intro ds h
    obtain ⟨d, ds2, _, hm, hds⟩ := mapM_entry_date_cons h
    rw [hds]
    simp [ih hm]

theorem mapM_entry_date_mem :
    ∀ {es : List Entry} {ds : List DateTime},
    es.mapM entry_date = Except.ok ds →
    ∀ d ∈ ds, ∃ e ∈ es, entry_date e = Except.ok d := by
  intro es
  induction es with
  | nil =>
    intro ds h
    cases h
    intro d hd
    cases hd
  | cons e rest ih =>
    intro ds h
    obtain ⟨d0, ds2, hd0, hm, hds⟩ := mapM_entry_date_cons h
    intro d hd
    rw [hds] at hd
    rcases List.mem_cons.mp hd with h1 | h2
    · exact ⟨e, List.mem_cons_self e rest, h1 ▸ hd0⟩
    · obtain ⟨e2, he2, hed⟩ := ih hm d h2
      exact ⟨e2, List.mem_cons_of_mem e he2, hed⟩

theorem mapM_entry_date_align :
    ∀ (es : List Entry) (ds : List DateTime) (k : Nat),
    es.mapM entry_date = Except.ok ds →
    ∀ q ∈ (es.enumFrom k).zip ds, entry_date q.1.2 = Except.ok q.2 := by
  intro es
  induction es with
  | nil =>
    intro ds k h q hq
    cases h
    cases hq
  | cons e rest ih =>
    intro ds k h q hq
    obtain ⟨d0, ds2, hd0, hm, hds⟩ := mapM_entry_date_cons h
    rw [hds] at hq
    rw [show (e :: rest).enumFrom k
        = (k, e) :: rest.enumFrom (k + 1) from rfl] at hq
    rw [show ((k, e) :: rest.enumFrom (k + 1)).zip (d0 :: ds2)
        = ((k, e), d0) :: (rest.enumFrom (k + 1)).zip ds2 from rfl] at hq
    rcases List.mem_cons.mp hq with h1 | h2
    · rw [h1]
      exact hd0
    · exact ih ds2 (k + 1) hm q h2

theorem trimSort_ok {f : Feed}
    (hdates : ∀ e ∈ entriesOf f,
      ∃ d, entry_date e = Except.ok d ∧ d.tz.isSome = true) :
    ∃ s, trimSort f = Except.ok s
      ∧ s.Perm (entriesOf f).enum
      ∧ s.Pairwise entryKeyLe := by
  by_cases hlen : (entriesOf f).enum.length ≤ 1
  · refine ⟨(entriesOf f).enum, ?_, List.Perm.refl _, ?_⟩
    · simp only [trimSort]
      split
      next h => rfl
      next h => exact absurd hlen h
    · rcases hl : (entriesOf f).enum with _ | ⟨x, _ | ⟨y, t⟩⟩
      · exact List.Pairwise.nil
      · exact List.pairwise_singleton _ _
      · rw [hl] at hlen
        simp at hlen
  · obtain ⟨ds, hds⟩ := mapM_entry_date_ok _
      (fun e he => ⟨(hdates e he).choose, (hdates e he).choose_spec.1⟩)
    have hlds : ds.length = (entriesOf f).length := mapM_entry_date_length hds
    have haware : ∀ d ∈ ds, d.tz.isSome = true := by
      intro d hd
      obtain ⟨e, he, hed⟩ := mapM_entry_date_mem hds d hd
      obtain ⟨d2, hd2, haw⟩ := hdates e he
      rw [hed] at hd2
      injection hd2 with h3
      rw [← h3] at haw
      exact haw
    have hnomix : ((ds.any fun d => d.tz.isSome)
        && (ds.any fun d => d.tz.isNone)) = false := by
      have h2 : (ds.any fun d => d.tz.isNone) = false := by
        rw [List.any_eq_false]
        intro d hd
        rw [Option.isNone_iff_eq_none]
        intro hn
        have := haware d hd
        rw [hn] at this
        cases this
      rw [h2, Bool.and_false]
    have hsort : trimSort f = Except.ok
        ((insSort trimLe ((entriesOf f).enum.zip ds)).map
          (fun p => p.1)) := by
      simp only [trimSort]
      rw [if_neg hlen, hds]
      show (if ((ds.any fun d => d.tz.isSome)
          && (ds.any fun d => d.tz.isNone)) = true then
          Except.error ()
        else Except.ok ((insSort trimLe ((entriesOf f).enum.zip ds)).map
          (fun p => p.1))) = _
      rw [hnomix]
      simp
    refine ⟨_, hsort, ?_, ?_⟩
    · have hperm := insSort_perm trimLe ((entriesOf f).enum.zip ds)
      have := hperm.map (fun p => p.1)
      rwa [show List.map (fun p => p.1) ((entriesOf f).enum.zip ds)
          = List.map Prod.fst ((entriesOf f).enum.zip ds) from rfl,
        List.map_fst_zip _ _ (by rw [List.enum_length, hlds])] at this
    · have hpw := sorted_insSort trimLe_trans trimLe_total
        ((entriesOf f).enum.zip ds)
      have halign : ∀ q ∈ insSort trimLe ((entriesOf f).enum.zip ds),
          entry_date q.1.2 = Except.ok q.2 := by
        intro q hq
        have hq2 := (insSort_perm
          trimLe ((entriesOf f).enum.zip ds)).mem_iff.mp hq
        exact mapM_entry_date_align (entriesOf f) ds 0 hds q
          (by rwa [show (entriesOf f).enumFrom 0 = (entriesOf f).enum
            from rfl])
      have hpw2 : (insSort trimLe ((entriesOf f).enum.zip ds)).Pairwise
          (fun q r => entryKeyLe q.1 r.1) := by
        refine hpw.imp_of_mem ?_
        intro q r hq hr hle
        intro da db hda hdb
        have h1 := halign q hq
        have h2 := halign r hr
        rw [h1] at hda
        rw [h2] at hdb
        injection hda with hda2
        injection hdb with hdb2
        rw [← hda2, ← hdb2]
        simp only [trimLe, Bool.or_eq_true, Bool.and_eq_true,
          decide_eq_true_eq, beq_iff_eq] at hle
        rcases hle with h3 | ⟨h3, _⟩
        · omega
        · omega
      exact List.Pairwise.map _ (fun a b h => h) hpw2

/-!
## Lemmas about the cap and age phases
-/

theorem trimCap_eq_drop (f : Feed) (s : List (Nat × Entry)) :
    trimCap f s = s.drop
      (if f.max_items > 0 then s.length - f.max_items.toNat else 0) := by
  by_cases h : f.max_items > 0 <;> simp [trimCap, h]

theorem ageLoop_ok {cutoff : Int} :
    ∀ (l : List (Nat × Entry)),
    (∀ q ∈ l, ∃ d, entry_date q.2 = Except.ok d ∧ d.tz.isSome = true) →
    ∃ l2, ageLoop cutoff l = Except.ok l2 ∧ l2 <:+ l := by
  intro l
  induction l with
  | nil => intro h; exact ⟨[], rfl, List.suffix_refl _⟩
  | cons q rest ih =>
    intro h
    obtain ⟨d, hd, haw⟩ := h q (List.mem_cons_self q rest)
    obtain ⟨z, hz⟩ := Option.isSome_iff_exists.mp haw
    have hstep : ageLoop cutoff (q :: rest)
        = (if utcKey d < cutoff then ageLoop cutoff rest
           else Except.ok (q :: rest)) := by
      have h0 : ageLoop cutoff (q :: rest)
          = Except.bind (entry_date q.2) (fun d2 =>
              match d2.tz with
              | none => Except.error ()
              | some _ =>
                if utcKey d2 < cutoff then ageLoop cutoff rest
                else Except.ok (q :: rest)) := rfl
      rw [h0, hd]
      have h1 : Except.bind (Except.ok d) (fun d2 =>
          match d2.tz with
          | none => (Except.error () : Except Unit (List (Nat × Entry)))
          | some _ =>
            if utcKey d2 < cutoff then ageLoop cutoff rest
            else Except.ok (q :: rest))
          = (match d.tz with
            | none => (Except.error () : Except Unit (List (Nat × Entry)))
            | some _ =>
              if utcKey d < cutoff then ageLoop cutoff rest
              else Except.ok (q :: rest)) := rfl
      rw [h1, hz]
    by_cases hold : utcKey d < cutoff
    · obtain ⟨l2, hl2, hsuf⟩ :=
        ih (fun r hr => h r (List.mem_cons_of_mem q hr))
      refine ⟨l2, ?_, hsuf.trans (List.suffix_cons q rest)⟩
      rw [hstep, if_pos hold]
      exact hl2
    · refine ⟨q :: rest, ?_, List.suffix_refl _⟩
      rw [hstep, if_neg hold]

theorem ageLoop_not_old {cutoff : Int} :
    ∀ (l : List (Nat × Entry)) (l2 : List (Nat × Entry)),
    l.Pairwise entryKeyLe →
    ageLoop cutoff l = Except.ok l2 →
    ∀ q ∈ l2, ∀ d, entry_date q.2 = Except.ok d →
      ¬ (utcKey d < cutoff) := by
  intro l
  induction l with
  | nil =>
    intro l2 hpw h
    cases h
    intro q hq
    cases hq
  | cons q rest ih =>
    intro l2 hpw h
    cases hd : entry_date q.2 with
    | error u =>
      replace h : Except.bind (entry_date q.2) (fun d2 =>
          match d2.tz with
          | none => Except.error ()
          | some _ =>
            if utcKey d2 < cutoff then ageLoop cutoff rest
            else Except.ok (q :: rest)) = Except.ok l2 := h
      rw [hd] at h
      exact Except.noConfusion h
    | ok d =>
      replace h : Except.bind (entry_date q.2) (fun d2 =>
          match d2.tz with
          | none => Except.error ()
          | some _ =>
            if utcKey d2 < cutoff then ageLoop cutoff rest
            else Except.ok (q :: rest)) = Except.ok l2 := h
      rw [hd] at h
      cases hz : d.tz with
      | none =>
        replace h : (match d.tz with
            | none => (Except.error () : Except Unit (List (Nat × Entry)))
            | some _ =>
              if utcKey d < cutoff then ageLoop cutoff rest
              else Except.ok (q :: rest)) = Except.ok l2 := h
        rw [hz] at h
        exact Except.noConfusion h
      | some z =>
        replace h : (match d.tz with
            | none => (Except.error () : Except Unit (List (Nat × Entry)))
            | some _ =>
              if utcKey d < cutoff then ageLoop cutoff rest
              else Except.ok (q :: rest)) = Except.ok l2 := h
        rw [hz] at h
        by_cases hold : utcKey d < cutoff
        · rw [if_pos hold] at h
          exact ih l2 (List.pairwise_cons.mp hpw).2 h
        · rw [if_neg hold] at h
          cases h
          intro r hr d2 hd2
          rcases List.mem_cons.mp hr with h1 | h2
          · rw [h1] at hd2
            rw [hd] at hd2
            have h3 : d = d2 := Except.ok.inj hd2
            rw [← h3]
            exact hold
          · have hle := (List.pairwise_cons.mp hpw).1 r h2 d d2 hd hd2
            omega

theorem trimAge_ok {now : DateTime} {f : Feed}
    {l : List (Nat × Entry)}
    (haware : ∀ q ∈ l, ∃ d, entry_date q.2 = Except.ok d
      ∧ d.tz.isSome = true)
    (hcut : f.max_time > 0 →
      ¬ (naiveKey now - f.max_time * 60000000 < naiveKey minSentinel)) :
    ∃ l2, trimAge now f l = Except.ok l2 ∧ l2 <:+ l
      ∧ (f.max_time > 0 → l.Pairwise entryKeyLe →
          ∀ q ∈ l2, ∀ d, entry_date q.2 = Except.ok d →
            ¬ (utcKey d < utcKey now - f.max_time * 60000000))
      ∧ (f.max_time ≤ 0 → l2 = l) := by
  by_cases hmt : f.max_time > 0
  · obtain ⟨l2, hl2, hsuf⟩ := ageLoop_ok l haware
    refine ⟨l2, ?_, hsuf, ?_, fun hle => absurd hmt (by omega)⟩
    · rw [trimAge, if_pos hmt, if_neg (hcut hmt)]
      exact hl2
    · intro _ hpw
      exact ageLoop_not_old l l2 hpw hl2
  · refine ⟨l, ?_, List.suffix_refl _, fun hm => absurd hm hmt,
      fun _ => rfl⟩
    rw [trimAge, if_neg hmt]

/-!
## Selection of kept entries
-/

theorem enum_nodup (es : List Entry) : es.enum.Nodup :=
  List.Nodup.of_map Prod.fst
    (by rw [List.enum_map_fst]; exact List.nodup_range _)

theorem enum_idx_det {es : List Entry} {a b : Nat × Entry}
    (ha : a ∈ es.enum) (hb : b ∈ es.enum) (hab : a.1 = b.1) : a = b := by
  obtain ⟨i1, x1⟩ := a
  obtain ⟨i2, x2⟩ := b
  simp only at hab
  subst hab
  obtain ⟨_, _, hx1⟩ := List.mem_enumFrom ha
  obtain ⟨_, _, hx2⟩ := List.mem_enumFrom hb
  rw [hx1, hx2]

theorem filter_enum_perm {es : List Entry} {K : List (Nat × Entry)}
    (hK : K.Subperm es.enum) :
    ((es.enum).filter
      (fun p => (K.map Prod.fst).contains p.1)).Perm K := by
  have hnodupE : es.enum.Nodup := enum_nodup es
  have hnodupK : K.Nodup := by
    obtain ⟨K2, hperm, hsub⟩ := hK
    exact (hperm.nodup_iff).mp (hsub.nodup hnodupE)
  have hnodupF := List.Nodup.filter
    (fun p => (K.map Prod.fst).contains p.1) hnodupE
  rw [List.perm_ext_iff_of_nodup hnodupF hnodupK]
  intro p
  constructor
  · intro hp
    obtain ⟨hpe, hpc⟩ := List.mem_filter.mp hp
    have hpc2 : p.1 ∈ K.map Prod.fst := by simpa using hpc
    obtain ⟨q, hq, hqp⟩ := List.mem_map.mp hpc2
    have hqe : q ∈ es.enum := hK.subset hq
    rwa [enum_idx_det hqe hpe hqp] at hq
  · intro hp
    refine List.mem_filter.mpr ⟨hK.subset hp, ?_⟩
    have hmem : p.1 ∈ K.map Prod.fst := List.mem_map.mpr ⟨p, hp, rfl⟩
    simpa using hmem

theorem filterIdx_all (keep : List Nat) :
    ∀ (cs : List Child) (k : Nat),
    (∀ q ∈ (entriesOfList cs).enumFrom k, keep.contains q.1 = true) →
    filterEntriesByIdx keep cs k = cs := by
  intro cs
  induction cs with
  | nil => intro k h; rfl
  | cons c rest ih =>
    intro k h
    cases c with
    | meta m =>
      rw [show filterEntriesByIdx keep (Child.meta m :: rest) k
          = Child.meta m :: filterEntriesByIdx keep rest k from rfl]
      rw [ih k (by
        intro q hq
        exact h q (by
          rwa [show entriesOfList (Child.meta m :: rest)
            = entriesOfList rest from rfl]))]
    | entry e =>
      have hk : keep.contains k = true := by
        refine h (k, e) ?_
        rw [show entriesOfList (Child.entry e :: rest)
            = e :: entriesOfList rest from rfl]
        exact List.mem_cons_self _ _
      have hk2 : k ∈ keep := by simpa using hk
      rw [show filterEntriesByIdx keep (Child.entry e :: rest) k
          = Child.entry e :: filterEntriesByIdx keep rest (k + 1)
          by simp [filterEntriesByIdx, hk2]]
      rw [ih (k + 1) (by
        intro q hq
        refine h q ?_
        rw [show entriesOfList (Child.entry e :: rest)
            = e :: entriesOfList rest from rfl]
        rw [show (e :: entriesOfList rest).enumFrom k
            = (k, e) :: (entriesOfList rest).enumFrom (k + 1) from rfl]
        exact List.mem_cons_of_mem _ hq)]

/-!
## The full trim specification
-/

theorem mem_snd_of_mem_enum {es : List Entry} {q : Nat × Entry}
    (hq : q ∈ es.enum) : q.2 ∈ es := by
  obtain ⟨i, x⟩ := q
  obtain ⟨_, _, hx⟩ := List.mem_enumFrom hq
  rw [hx]
  exact List.getElem_mem _

theorem trim_spec {f : Feed} {now : DateTime}
    (hdates : ∀ e ∈ entriesOf f,
      ∃ d, entry_date e = Except.ok d ∧ d.tz.isSome = true)
    (hcut : f.max_time > 0 →
      ¬ (naiveKey now - f.max_time * 60000000 < naiveKey minSentinel)) :
    ∃ g, trim_entries now f = Except.ok g
      ∧ (f.max_items > 0 → (entriesOf g).length ≤ f.max_items.toNat)
      ∧ (f.max_items > 0 → f.max_time ≤ 0 →
          (entriesOf g).length
            = min (entriesOf f).length f.max_items.toNat)
      ∧ (∃ removed, (removed ++ entriesOf g).Perm (entriesOf f)
          ∧ ∀ er ∈ removed, ∀ ek ∈ entriesOf g, ∀ dr dk,
              entry_date er = Except.ok dr →
              entry_date ek = Except.ok dk → utcKey dr ≤ utcKey dk)
      ∧ (f.max_time > 0 → ∀ ek ∈ entriesOf g, ∀ dk,
          entry_date ek = Except.ok dk →
          ¬ (utcKey dk < utcKey now - f.max_time * 60000000))
      ∧ (f.max_items ≤ 0 → f.max_time ≤ 0 → g = f) := by
  obtain ⟨s, hs, hperm, hpw⟩ := trimSort_ok hdates
  have hslen : s.length = (entriesOf f).length := by
    rw [hperm.length_eq, List.enum_length]
  have hmemS : ∀ q ∈ s, q.2 ∈ entriesOf f := fun q hq =>
    mem_snd_of_mem_enum (hperm.mem_iff.mp hq)
  have hcapEq := trimCap_eq_drop f s
  set j : Nat := if f.max_items > 0 then s.length - f.max_items.toNat
    else 0 with hj
  have hawareCap : ∀ q ∈ s.drop j,
      ∃ d, entry_date q.2 = Except.ok d ∧ d.tz.isSome = true :=
    fun q hq => hdates q.2 (hmemS q (List.drop_subset j s hq))
  have hpwCap : (s.drop j).Pairwise entryKeyLe :=
    List.Pairwise.sublist (List.drop_sublist j s) hpw
  obtain ⟨a, ha, hsufa, hnotold, hid⟩ := trimAge_ok hawareCap hcut
  obtain ⟨t, ht⟩ := hsufa
  have hasub : a.Subperm (entriesOf f).enum := by
    have h1 : a.Sublist (s.drop j) := by
      rw [← ht]
      exact List.sublist_append_right t a
    exact List.Subperm.trans
      (List.Sublist.subperm (h1.trans (List.drop_sublist j s)))
      hperm.subperm
  have hg : trim_entries now f = Except.ok (Feed.mk
      (filterEntriesByIdx (a.map (fun p => p.1)) f.children 0)
      f.max_items f.max_time f.strip_subject) := by
    simp only [trim_entries]
    rw [hs]
    show Except.bind (trimAge now f (trimCap f s))
        (fun afterAge =>
          Except.ok (Feed.mk
            (filterEntriesByIdx (afterAge.map (fun p => p.1))
              f.children 0)
            f.max_items f.max_time f.strip_subject))
        = _
    rw [hcapEq, ha]
    rfl
  have hgentries : entriesOf (Feed.mk
      (filterEntriesByIdx (a.map (fun p => p.1)) f.children 0)
      f.max_items f.max_time f.strip_subject)
      = ((((entriesOf f).enum).filter
          (fun p => ((a.map (fun p => p.1)).contains p.1))).map
            Prod.snd) := by
    exact entriesOfList_filterIdx (a.map (fun p => p.1)) f.children 0
  have hfperm : ((((entriesOf f).enum).filter
      (fun p => ((a.map (fun p => p.1)).contains p.1)))).Perm a :=
    filter_enum_perm hasub
  have hgperm : (entriesOf (Feed.mk
      (filterEntriesByIdx (a.map (fun p => p.1)) f.children 0)
      f.max_items f.max_time f.strip_subject)).Perm
      (a.map Prod.snd) := by
    rw [hgentries]
    exact hfperm.map Prod.snd
  have hglen : (entriesOf (Feed.mk
      (filterEntriesByIdx (a.map (fun p => p.1)) f.children 0)
      f.max_items f.max_time f.strip_subject)).length
      = a.length := by
    rw [hgperm.length_eq, List.length_map]
  have halen : a.length ≤ s.length - j := by
    have := congrArg List.length ht
    rw [List.length_append, List.length_drop] at this
    omega
  refine ⟨_, hg, ?_, ?_, ?_, ?_, ?_⟩
  · intro hmi
    rw [hglen]
    rw [hj] at halen
    rw [if_pos hmi] at halen
    omega
  · intro hmi hmt
    rw [hglen, hid hmt]
    have : (s.drop j).length = s.length - j := List.length_drop j s
    rw [this]
    rw [hj, if_pos hmi, ← hslen]
    omega
  · -- removed entries are the oldest
    refine ⟨(s.take j).map Prod.snd ++ t.map Prod.snd, ?_, ?_⟩
    · have h1 : (((s.take j).map Prod.snd ++ t.map Prod.snd)
          ++ entriesOf (Feed.mk
            (filterEntriesByIdx (a.map (fun p => p.1)) f.children 0)
            f.max_items f.max_time f.strip_subject)).Perm
          (((s.take j).map Prod.snd ++ t.map Prod.snd)
            ++ a.map Prod.snd) :=
        List.Perm.append_left _ hgperm
      refine h1.trans ?_
      have h2 : ((s.take j).map Prod.snd ++ t.map Prod.snd)
          ++ a.map Prod.snd = s.map Prod.snd := by
        rw [List.append_assoc, ← List.map_append, ← List.map_append, ht,
          List.take_append_drop]
      rw [h2]
      have h3 := hperm.map Prod.snd
      rwa [List.enum_map_snd] at h3
    · intro er her ek hek dr dk hdr hdk
      obtain ⟨p, hp, hpek⟩ := List.mem_map.mp (hgperm.mem_iff.mp hek)
      have hple : ∀ q, q ∈ s.take j ∨ q ∈ t → entryKeyLe q p := by
        intro q hq
        rcases hq with h1 | h2
        · have hpwTD : (s.take j ++ s.drop j).Pairwise entryKeyLe := by
            rw [List.take_append_drop]
            exact hpw
          exact (List.pairwise_append.mp hpwTD).2.2 q h1 p (by
            rw [← ht]
            exact List.mem_append.mpr (Or.inr hp))
        · have hpw2 : (t ++ a).Pairwise entryKeyLe := by
            rwa [ht]
          exact (List.pairwise_append.mp hpw2).2.2 q h2 p hp
      rcases List.mem_append.mp her with h1 | h2
      · obtain ⟨q, hq, hqer⟩ := List.mem_map.mp h1
        have := hple q (Or.inl hq) dr dk (by rwa [hqer]) (by rwa [hpek])
        exact this
      · obtain ⟨q, hq, hqer⟩ := List.mem_map.mp h2
        have := hple q (Or.inr hq) dr dk (by rwa [hqer]) (by rwa [hpek])
        exact this
  · intro hmt ek hek dk hdk
    obtain ⟨p, hp, hpek⟩ := List.mem_map.mp (hgperm.mem_iff.mp hek)
    exact hnotold hmt hpwCap p hp dk (by rwa [hpek])
  · intro hmi hmt
    have hj0 : j = 0 := by
      rw [hj, if_neg (by omega)]
    have haeq : a = s := by
      rw [hid hmt, hj0, List.drop_zero]
    have hkeep : ∀ q ∈ (entriesOf f).enumFrom 0,
        (a.map (fun p => p.1)).contains q.1 = true := by
      intro q hq
      have hq2 : q ∈ (entriesOf f).enum := by
        rwa [show (entriesOf f).enumFrom 0 = (entriesOf f).enum
          from rfl] at hq
      have : q.1 ∈ (entriesOf f).enum.map Prod.fst :=
        List.mem_map.mpr ⟨q, hq2, rfl⟩
      have hpermf : (s.map Prod.fst).Perm
          ((entriesOf f).enum.map Prod.fst) := hperm.map Prod.fst
      have : q.1 ∈ s.map Prod.fst := hpermf.mem_iff.mpr this
      rw [haeq]
      simpa using this
    have hfinal : Feed.mk
        (filterEntriesByIdx (a.map (fun p => p.1)) f.children 0)
        f.max_items f.max_time f.strip_subject = f := by
      rw [filterIdx_all _ f.children 0 hkeep]
    exact hfinal

theorem ageLoop_keep {cutoff : Int} (l : List (Nat × Entry))
    (haware : ∀ q ∈ l, ∃ d, entry_date q.2 = Except.ok d
      ∧ d.tz.isSome = true)
    (hnold : ∀ q ∈ l, ∀ d, entry_date q.2 = Except.ok d →
      ¬ (utcKey d < cutoff)) :
    ageLoop cutoff l = Except.ok l := by
  cases l with
  | nil => rfl
  | cons q rest =>
    obtain ⟨d, hd, haw⟩ := haware q (List.mem_cons_self q rest)
    obtain ⟨z, hz⟩ := Option.isSome_iff_exists.mp haw
    have h0 : ageLoop cutoff (q :: rest)
        = Except.bind (entry_date q.2) (fun d2 =>
            match d2.tz with
            | none => Except.error ()
            | some _ =>
              if utcKey d2 < cutoff then ageLoop cutoff rest
              else Except.ok (q :: rest)) := rfl
    rw [h0, hd]
    have h1 : Except.bind (Except.ok d) (fun d2 =>
        match d2.tz with
        | none => (Except.error () : Except Unit (List (Nat × Entry)))
        | some _ =>
          if utcKey d2 < cutoff then ageLoop cutoff rest
          else Except.ok (q :: rest))
        = (match d.tz with
          | none => (Except.error () : Except Unit (List (Nat × Entry)))
          | some _ =>
            if utcKey d < cutoff then ageLoop cutoff rest
            else Except.ok (q :: rest)) := rfl
    rw [h1, hz,
      if_neg (hnold q (List.mem_cons_self q rest) d hd)]

theorem trim_id {f : Feed} {now : DateTime}
    (hdates : ∀ e ∈ entriesOf f,
      ∃ d, entry_date e = Except.ok d ∧ d.tz.isSome = true)
    (hcap : f.max_items > 0 →
      (entriesOf f).length ≤ f.max_items.toNat)
    (hage : f.max_time > 0 →
      ¬ (naiveKey now - f.max_time * 60000000 < naiveKey minSentinel)
      ∧ ∀ e ∈ entriesOf f, ∀ d, entry_date e = Except.ok d →
          ¬ (utcKey d < utcKey now - f.max_time * 60000000)) :
    trim_entries now f = Except.ok f := by
  obtain ⟨s, hs, hperm, hpw⟩ := trimSort_ok hdates
  have hslen : s.length = (entriesOf f).length := by
    rw [hperm.length_eq, List.enum_length]
  have hmemS : ∀ q ∈ s, q.2 ∈ entriesOf f := fun q hq =>
    mem_snd_of_mem_enum (hperm.mem_iff.mp hq)
  have hcapEq : trimCap f s = s := by
    rw [trimCap_eq_drop]
    have h0 : (if f.max_items > 0 then s.length - f.max_items.toNat
        else 0) = 0 := by
      by_cases hmi : f.max_items > 0
      · rw [if_pos hmi]
        have := hcap hmi
        omega
      · rw [if_neg hmi]
    rw [h0, List.drop_zero]
  have hageEq : trimAge now f s = Except.ok s := by
    by_cases hmt : f.max_time > 0
    · obtain ⟨hcut, hnold⟩ := hage hmt
      rw [trimAge, if_pos hmt, if_neg hcut]
      exact ageLoop_keep s (fun q hq => hdates q.2 (hmemS q hq))
        (fun q hq d hd => hnold q.2 (hmemS q hq) d hd)
    · rw [trimAge, if_neg hmt]
  have hkeep : ∀ q ∈ (entriesOf f).enumFrom 0,
      (s.map (fun p => p.1)).contains q.1 = true := by
    intro q hq
    have hq2 : q ∈ (entriesOf f).enum := by
      rwa [show (entriesOf f).enumFrom 0 = (entriesOf f).enum
        from rfl] at hq
    have h3 : q.1 ∈ (entriesOf f).enum.map Prod.fst :=
      List.mem_map.mpr ⟨q, hq2, rfl⟩
    have hpermf : (s.map Prod.fst).Perm
        ((entriesOf f).enum.map Prod.fst) := hperm.map Prod.fst
    have h4 : q.1 ∈ s.map Prod.fst := hpermf.mem_iff.mpr h3
    simpa using h4
  simp only [trim_entries]
  rw [hs]
  show Except.bind (trimAge now f (trimCap f s))
      (fun afterAge =>
        Except.ok (Feed.mk
          (filterEntriesByIdx (afterAge.map (fun p => p.1))
            f.children 0)
          f.max_items f.max_time f.strip_subject))
      = _
  rw [hcapEq, hageEq]
  show Except.ok (Feed.mk
      (filterEntriesByIdx (s.map (fun p => p.1)) f.children 0)
      f.max_items f.max_time f.strip_subject) = _
  rw [filterIdx_all _ f.children 0 hkeep]

theorem ingest_stop {digest dec : String → String}
    {pa : String → String × String} {pd : ParsedateFn} {now : DateTime}
    {f : Feed} {fid : String} {m : Message} {rest : List Message}
    {count : Nat}
    (hfid : feedId f = Except.ok fid)
    (hcont : ((entriesOf f).any
      (fun e => e.idText == fid ++ "#" ++ message_id digest m))
      = true) :
    ingestLoop digest dec pa pd now f (m :: rest) count
      = Except.ok (f, count) := by
  rw [show ingestLoop digest dec pa pd now f (m :: rest) count
      = (do
          let c ← contains_message digest f m
          if c then Except.ok (f, count)
          else do
            let fn ← add_message digest dec pa pd f m now
            if fn.max_items > 0 ∧ (count + 1 : Int) > fn.max_items then
              Except.ok (fn, count + 1)
            else ingestLoop digest dec pa pd now fn rest (count + 1))
      from rfl, contains_message_eval hfid m, hcont]
  rfl

/-!
## Claim theorems: trim postcondition and per-run cap
-/

/-- C2 (corrected).  The claim asserts that entries with a missing or
unparseable updated sort as the minimum timestamp and go first; in the
code an unparseable updated text raises inside the sort comparison (and a
missing one, which yields a naive sentinel, raises TypeError as soon as
it is compared with an aware date or with the aware age cutoff): see the
counterexample.  Amended claim: when every entry's updated is present and
parses (always the case for feeds this program writes), trim with
maxItems > 0 leaves at most maxItems entries, exactly
min(count, maxItems) when the age rule is off, the entries removed by
either rule are never newer than any retained one, with
maxAgeMinutes > 0 no retained entry is older than now minus
maxAgeMinutes, and values ≤ 0 disable both rules (the feed is then
unchanged). -/
theorem C2_trim_postcondition (f : Feed) (now : DateTime)
    (hdates : ∀ e ∈ entriesOf f,
      ∃ d, entry_date e = Except.ok d ∧ d.tz.isSome = true)
    (hcut : f.max_time > 0 →
      ¬ (naiveKey now - f.max_time * 60000000 < naiveKey minSentinel)) :
    ∃ g, trim_entries now f = Except.ok g
      ∧ (f.max_items > 0 → (entriesOf g).length ≤ f.max_items.toNat)
      ∧ (f.max_items > 0 → f.max_time ≤ 0 →
          (entriesOf g).length
            = min (entriesOf f).length f.max_items.toNat)
      ∧ (∃ removed, (removed ++ entriesOf g).Perm (entriesOf f)
          ∧ ∀ er ∈ removed, ∀ ek ∈ entriesOf g, ∀ dr dk,
              entry_date er = Except.ok dr →
              entry_date ek = Except.ok dk → utcKey dr ≤ utcKey dk)
      ∧ (f.max_time > 0 → ∀ ek ∈ entriesOf g, ∀ dk,
          entry_date ek = Except.ok dk →
          ¬ (utcKey dk < utcKey now - f.max_time * 60000000))
      ∧ (f.max_items ≤ 0 → f.max_time ≤ 0 → g = f) :=
  trim_spec hdates hcut

theorem C2_trim_postcondition_witness :
    trim_entries nowEx fC2 = Except.ok gC2w
      ∧ (entriesOf gC2w).length ≤ 2 := by
  obtain ⟨g, hok, hlen, _⟩ := C2_trim_postcondition fC2 nowEx
    (by
      intro e he
      replace he : e ∈ [entryAt "e1" "2007-01-03T00:00:00+00",
        entryAt "e2" "2007-01-01T00:00:00+00",
        entryAt "e3" "2007-01-02T00:00:00+00"] := he
      fin_cases he
      · exact ⟨⟨2007, 1, 3, 0, 0, 0, 0, some 0⟩, rfl, rfl⟩
      · exact ⟨⟨2007, 1, 1, 0, 0, 0, 0, some 0⟩, rfl, rfl⟩
      · exact ⟨⟨2007, 1, 2, 0, 0, 0, 0, some 0⟩, rfl, rfl⟩)
    (by decide)
  have heval : trim_entries nowEx fC2 = Except.ok gC2w := by rfl
  refine ⟨heval, ?_⟩
  have hg : g = gC2w := Except.ok.inj (hok.symm.trans heval)
  have := hlen (by decide)
  rw [hg] at this
  exact this

/-- C2 counterexample: a feed holding an entry whose updated text is
unparseable next to a parseable one; the claim says it sorts as the
minimum timestamp and is removed first (leaving the parseable entry
under maxItems = 1), but trim raises instead of producing any feed. -/
theorem C2_trim_postcondition_counterexample :
    trim_entries nowEx fC2bad = Except.error () := by rfl

/-- C9 (corrected).  The claim says the early stop allows exactly
maxItems entries to be added in one run; the counter is incremented
before the check and the loop stops only when count exceeds maxItems, so
exactly maxItems + 1 fresh entries are appended: see the counterexample.
Amended claim: with maxItems > 0 and more fresh messages than the cap,
the loop appends exactly maxItems + 1 entries and stops; the feed-wide
trim afterward remains authoritative, leaving at most maxItems entries
in the saved feed. -/
theorem C9_per_run_cap (digest dec : String → String)
    (pa : String → String × String) (pd : ParsedateFn) (now : DateTime)
    (f : Feed) (fid : String) (pre : List Message) (m : Message)
    (hmi : f.max_items > 0)
    (hfid : feedId f = Except.ok fid)
    (hlen : (pre.length : Int) = f.max_items)
    (hfresh : ∀ p ∈ pre ++ [m], ¬ (fid ++ "#" ++ message_id digest p)
        ∈ (entriesOf f).map Entry.idText)
    (hdist : ((pre ++ [m]).map (message_id digest)).Pairwise
        (fun a b => a ≠ b))
    (hdates : ∀ p ∈ pre ++ [m], ∃ d, message_date pd p = Except.ok d) :
    (∃ es e, pre.mapM (fun p =>
        mkEntryCore digest dec pa pd fid f.strip_subject p now)
        = Except.ok es
      ∧ mkEntryCore digest dec pa pd fid f.strip_subject m now
          = Except.ok e
      ∧ ∀ post, ingestLoop digest dec pa pd now f (pre ++ m :: post) 0
          = Except.ok (Feed.mk
              (f.children ++ (es ++ [e]).map Child.entry)
              f.max_items f.max_time f.strip_subject,
              pre.length + 1))
    ∧ (∀ (g : Feed) (now2 : DateTime), g.max_items = f.max_items →
        (∀ e2 ∈ entriesOf g,
          ∃ d, entry_date e2 = Except.ok d ∧ d.tz.isSome = true) →
        (g.max_time > 0 → ¬ (naiveKey now2 - g.max_time * 60000000
          < naiveKey minSentinel)) →
        ∃ g2, trim_entries now2 g = Except.ok g2
          ∧ (entriesOf g2).length ≤ f.max_items.toNat) := by
  constructor
  · have hfresh1 : ∀ p ∈ pre, ¬ (fid ++ "#" ++ message_id digest p)
        ∈ (entriesOf f).map Entry.idText :=
      fun p hp => hfresh p (List.mem_append.mpr (Or.inl hp))
    have hdist1 : (pre.map (message_id digest)).Pairwise
        (fun a b => a ≠ b) := by
      rw [List.map_append] at hdist
      exact (List.pairwise_append.mp hdist).1
    have hdates1 : ∀ p ∈ pre, ∃ d, message_date pd p = Except.ok d :=
      fun p hp => hdates p (List.mem_append.mpr (Or.inl hp))
    obtain ⟨es, hmap, hids, hloop⟩ := ingest_fresh_prefix pre f 0 hfid
      hfresh1 hdist1 hdates1 (Or.inr (by push_cast; omega))
    obtain ⟨dm, hdm⟩ := hdates m (List.mem_append.mpr
      (Or.inr (List.mem_singleton.mpr rfl)))
    obtain ⟨e, hcore⟩ :=
      @mkEntryCore_ok digest dec pa pd fid f.strip_subject m now dm hdm
    refine ⟨es, e, hmap, hcore, ?_⟩
    intro post
    rw [hloop (m :: post), Nat.zero_add]
    set F2 : Feed := Feed.mk (f.children ++ es.map Child.entry)
      f.max_items f.max_time f.strip_subject with hF2
    have hfid2 : feedId F2 = Except.ok fid := by
      rw [hF2, feedId_append_entries]
      exact hfid
    have hentries2 : entriesOf F2 = entriesOf f ++ es := by
      rw [hF2]
      exact entriesOfList_append_entries f.children es
    have hany : ((entriesOf F2).any (fun x =>
        x.idText == fid ++ "#" ++ message_id digest m)) = false := by
      rw [List.any_eq_false]
      intro x hx
      simp only [beq_iff_eq]
      intro hxeq
      rw [hentries2] at hx
      rcases List.mem_append.mp hx with h1 | h2
      · exact hfresh m (List.mem_append.mpr
          (Or.inr (List.mem_singleton.mpr rfl)))
          (List.mem_map.mpr ⟨x, h1, hxeq⟩)
      · have hxid : x.idText ∈ es.map Entry.idText :=
          List.mem_map.mpr ⟨x, h2, rfl⟩
        rw [hids] at hxid
        obtain ⟨p, hp, hpid⟩ := List.mem_map.mp hxid
        rw [← hpid] at hxeq
        have hne : message_id digest p ≠ message_id digest m := by
          rw [List.map_append] at hdist
          have := (List.pairwise_append.mp hdist).2.2
            (message_id digest p) (List.mem_map.mpr ⟨p, hp, rfl⟩)
            (message_id digest m)
            (by rw [show List.map (message_id digest) [m]
              = [message_id digest m] from rfl]
                exact List.mem_singleton.mpr rfl)
          exact this
        exact hne (str_append_left_inj hxeq)
    have hadd := add_message_eval hfid2 hcore
    have hcap2 : F2.max_items > 0
        ∧ (pre.length + 1 : Int) > F2.max_items := by
      refine ⟨hmi, ?_⟩
      rw [show F2.max_items = f.max_items from rfl, ← hlen]
      omega
    rw [show ingestLoop digest dec pa pd now F2 (m :: post) pre.length
        = Except.bind (contains_message digest F2 m) (fun c =>
            if c then Except.ok (F2, pre.length)
            else Except.bind (add_message digest dec pa pd F2 m now)
              (fun fn =>
                if fn.max_items > 0
                    ∧ (pre.length + 1 : Int) > fn.max_items then
                  Except.ok (fn, pre.length + 1)
                else ingestLoop digest dec pa pd now fn post
                  (pre.length + 1)))
        from rfl, contains_message_eval hfid2 m, hany]
    show Except.bind (add_message digest dec pa pd F2 m now)
        (fun fn =>
          if fn.max_items > 0
              ∧ (pre.length + 1 : Int) > fn.max_items then
            Except.ok (fn, pre.length + 1)
          else ingestLoop digest dec pa pd now fn post
            (pre.length + 1)) = _
    rw [hadd]
    show (if (Feed.mk (F2.children ++ [Child.entry e]) F2.max_items
          F2.max_time F2.strip_subject).max_items > 0
        ∧ (pre.length + 1 : Int) > (Feed.mk
          (F2.children ++ [Child.entry e]) F2.max_items
          F2.max_time F2.strip_subject).max_items then
        Except.ok (Feed.mk (F2.children ++ [Child.entry e]) F2.max_items
          F2.max_time F2.strip_subject, pre.length + 1)
      else ingestLoop digest dec pa pd now
        (Feed.mk (F2.children ++ [Child.entry e]) F2.max_items
          F2.max_time F2.strip_subject) post (pre.length + 1)) = _
    rw [if_pos hcap2]
    have hch : F2.children ++ [Child.entry e]
        = f.children ++ (es ++ [e]).map Child.entry := by
      rw [show F2.children = f.children ++ es.map Child.entry from rfl,
        List.append_assoc, List.map_append]
      rfl
    rw [hch]
  · intro g now2 hgmi hdates2 hcut2
    obtain ⟨g2, hok, hlen2, _⟩ := trim_spec hdates2 hcut2
    refine ⟨g2, hok, ?_⟩
    have := hlen2 (by omega)
    rwa [hgmi] at this

theorem C9_per_run_cap_witness :
    ingestLoop digestId decId paEx pdNone nowEx fdC1
        [msgSub "a", msgSub "b", msgSub "x"] 0
      = Except.ok (Feed.mk
          (fdC1.children ++ [Child.entry eC1a, Child.entry eC1b])
          1 (-1) false, 2) := by
  obtain ⟨⟨es, e, hmap, hcore, hloop⟩, _⟩ := C9_per_run_cap digestId
    decId paEx pdNone nowEx fdC1 "F" [msgSub "a"] (msgSub "b")
    (by decide) rfl (by decide) (by decide) (by decide)
    (by
      intro p hp
      replace hp : p ∈ [msgSub "a", msgSub "b"] := hp
      fin_cases hp
      · exact ⟨minSentinel, rfl⟩
      · exact ⟨minSentinel, rfl⟩)
  have h2 : ([msgSub "a"]).mapM (fun p =>
      mkEntryCore digestId decId paEx pdNone "F" fdC1.strip_subject p
        nowEx) = Except.ok [eC1a] := rfl
  have h3 : mkEntryCore digestId decId paEx pdNone "F"
      fdC1.strip_subject (msgSub "b") nowEx = Except.ok eC1b := rfl
  injection hmap.symm.trans h2 with hes
  have he : e = eC1b := Except.ok.inj (hcore.symm.trans h3)
  have h4 := hloop [msgSub "x"]
  rw [hes, he] at h4
  exact h4

/-- C9 counterexample: maxItems = 1 and three fresh messages; the run
appends two entries (maxItems + 1), not exactly maxItems, before
stopping. -/
theorem C9_per_run_cap_counterexample :
    (ingestLoop digestId decId paEx pdNone nowEx fdC1
        [msgSub "a", msgSub "b", msgSub "c"] 0).map
        (fun r => ((entriesOf r.1).map Entry.idText, r.2))
      = Except.ok (["F#dD", "F#aD", "F#bD"], 2) := by rfl

/-!
## Claim theorem: idempotent re-run
-/

/-- C5 (corrected).  The claim says a second run whose source yields no
new messages (its first message is already contained) leaves the entry
set unchanged while updated advances.  That holds only when the age rule
cannot fire: with maxAgeMinutes > 0 and a clock that has advanced past
an entry's age, the save of the second run removes that entry even
though the source produced nothing new (see the counterexample).
Amended claim: under a loaded feed whose stored updated parses, whose
entries all carry parseable aware updated values within the age window
(vacuous when maxAgeMinutes ≤ 0) and within the item cap (vacuous when
maxItems ≤ 0), a run whose source is empty or whose first message is
already contained returns exactly the loaded feed with generator and
feed-level updated re-stamped: the entry list — hence the entry id set —
is identical to the stored one, and updated becomes the run's current
time. -/
theorem C5_idempotent_rerun (digest dec : String → String)
    (pa : String → String × String) (pd : ParsedateFn)
    (cs : List Child) (uri title : String) (mi mt : Int) (st : Bool)
    (msgs : List Message) (now trimNow : DateTime) (fid : String)
    (u : DateTime)
    (hu : feedUpdated (feedInit (some (Except.ok cs)) uri title mi mt st)
        = Except.ok u)
    (hfid : feedId (feedInit (some (Except.ok cs)) uri title mi mt st)
        = Except.ok fid)
    (hnoerr : ¬ (mt > 0 ∧ (naiveKey now - mt * 60000000
        < naiveKey minSentinel ∨ now.tz = none)))
    (hmsgs : msgs = [] ∨ ∃ m rest, msgs = m :: rest
        ∧ ((entriesOf (feedInit (some (Except.ok cs))
              uri title mi mt st)).any
            (fun e => e.idText == fid ++ "#" ++ message_id digest m))
          = true)
    (hone : countMeta (feedInit (some (Except.ok cs)) uri title mi mt st)
        "updated" ≤ 1)
    (hdates : ∀ e ∈ entriesOfList cs,
      ∃ d, entry_date e = Except.ok d ∧ d.tz.isSome = true)
    (hcap : mi > 0 → (entriesOfList cs).length ≤ mi.toNat)
    (hage : mt > 0 →
      ¬ (naiveKey trimNow - mt * 60000000 < naiveKey minSentinel)
      ∧ ∀ e ∈ entriesOfList cs, ∀ d, entry_date e = Except.ok d →
          ¬ (utcKey d < utcKey trimNow - mt * 60000000)) :
    mainRun digest dec pa pd (some (Except.ok cs)) uri title mi mt st
        msgs now trimNow
      = Except.ok (set_generator (set_updated
          (feedInit (some (Except.ok cs)) uri title mi mt st) now))
      ∧ entriesOf (set_generator (set_updated
          (feedInit (some (Except.ok cs)) uri title mi mt st) now))
        = entriesOfList cs
      ∧ firstMeta (set_generator (set_updated
          (feedInit (some (Except.ok cs)) uri title mi mt st) now))
          "updated"
        = some ⟨"updated", [], pyIsoformat now⟩ := by
  have hentF : entriesOf (feedInit (some (Except.ok cs))
      uri title mi mt st) = entriesOfList cs := by
    rw [show feedInit (some (Except.ok cs)) uri title mi mt st
        = replace_element (replace_element (Feed.mk cs mi mt st)
            ⟨"link", [("rel", "self"), ("href", uri)], ""⟩)
          ⟨"title", [], title⟩ from rfl,
      entriesOf_replace, entriesOf_replace]
    rfl
  have hent2 : entriesOf (set_generator (set_updated
      (feedInit (some (Except.ok cs)) uri title mi mt st) now))
      = entriesOfList cs := by
    rw [entriesOf_set_generator, entriesOf_set_updated, hentF]
  have htrim : trim_entries trimNow (set_generator (set_updated
      (feedInit (some (Except.ok cs)) uri title mi mt st) now))
      = Except.ok (set_generator (set_updated
          (feedInit (some (Except.ok cs)) uri title mi mt st) now)) := by
    apply trim_id
    · intro e he
      rw [hent2] at he
      exact hdates e he
    · intro hmi0
      rw [hent2]
      rw [show Feed.max_items (set_generator (set_updated
          (feedInit (some (Except.ok cs)) uri title mi mt st) now))
          = mi from rfl] at hmi0 ⊢
      exact hcap hmi0
    · intro hmt0
      rw [show Feed.max_time (set_generator (set_updated
          (feedInit (some (Except.ok cs)) uri title mi mt st) now))
          = mt from rfl] at hmt0
      obtain ⟨h1, h2⟩ := hage hmt0
      constructor
      · rw [show Feed.max_time (set_generator (set_updated
            (feedInit (some (Except.ok cs)) uri title mi mt st) now))
            = mt from rfl]
        exact h1
      · intro e he d hd
        rw [hent2] at he
        rw [show Feed.max_time (set_generator (set_updated
            (feedInit (some (Except.ok cs)) uri title mi mt st) now))
            = mt from rfl]
        exact h2 e he d hd
  have hing : ingestLoop digest dec pa pd now
      (feedInit (some (Except.ok cs)) uri title mi mt st) msgs 0
      = Except.ok (feedInit (some (Except.ok cs)) uri title mi mt st,
          0) := by
    rcases hmsgs with rfl | ⟨m, rest, rfl, hcont⟩
    · rfl
    · exact ingest_stop hfid hcont
  refine ⟨?_, hent2, ?_⟩
  · simp only [mainRun]
    rw [hu]
    show (if mt > 0 ∧ (naiveKey now - mt * 60000000
          < naiveKey minSentinel ∨ now.tz = none) then
        (Except.error () : Except Unit Feed)
      else Except.bind (ingestLoop digest dec pa pd now
          (feedInit (some (Except.ok cs)) uri title mi mt st) msgs 0)
        (fun r => save trimNow (set_updated r.1 now))) = _
    rw [if_neg hnoerr, hing]
    exact htrim
  · rw [show firstMeta (set_generator (set_updated
        (feedInit (some (Except.ok cs)) uri title mi mt st) now))
          "updated"
        = firstMeta (set_updated
            (feedInit (some (Except.ok cs)) uri title mi mt st) now)
          "updated"
        from firstMeta_replace_other _ _ (by decide)]
    exact firstMeta_replace_self
      (feedInit (some (Except.ok cs)) uri title mi mt st)
      ⟨"updated", [], pyIsoformat now⟩ hone

theorem C5_idempotent_rerun_witness :
    mainRun digestId decId paEx pdNone (some (Except.ok csC5))
        "u" "t" 2 (-1) false [msgSub "a"] nowEx trimNowEx
      = Except.ok (set_generator (set_updated
          (feedInit (some (Except.ok csC5)) "u" "t" 2 (-1) false) nowEx))
      ∧ entriesOf (set_generator (set_updated
          (feedInit (some (Except.ok csC5)) "u" "t" 2 (-1) false) nowEx))
        = entriesOfList csC5
      ∧ firstMeta (set_generator (set_updated
          (feedInit (some (Except.ok csC5)) "u" "t" 2 (-1) false) nowEx))
          "updated"
        = some ⟨"updated", [], pyIsoformat nowEx⟩ := by
  exact C5_idempotent_rerun digestId decId paEx pdNone csC5 "u" "t"
    2 (-1) false [msgSub "a"] nowEx trimNowEx "F"
    ⟨2007, 1, 2, 3, 4, 5, 0, some 0⟩
    (by rfl) (by rfl)
    (by intro h; exact absurd h.1 (by decide))
    (Or.inr ⟨msgSub "a", [], rfl, by rfl⟩)
    (by decide)
    (by
      intro e he
      replace he : e ∈ [entryAt "F#aD" "2007-01-02T03:04:05+00"] := he
      rcases List.mem_singleton.mp he with rfl
      exact ⟨⟨2007, 1, 2, 3, 4, 5, 0, some 0⟩, rfl, rfl⟩)
    (by intro h2; decide)
    (by intro h; exact absurd h (by decide))

/-- C5 counterexample: the same stored feed re-run with
maxAgeMinutes = 10 at a much later clock; the source's first (and only)
message is already contained, yet the second run's save removes the
stored entry, so the entry id set shrinks from one element to none. -/
theorem C5_idempotent_rerun_counterexample :
    (mainRun digestId decId paEx pdNone (some (Except.ok csC5))
        "u" "t" 2 10 false [msgSub "a"] nowEx trimNowEx).map
        (fun g => (entriesOf g).map Entry.idText)
      = Except.ok []
      ∧ (entriesOfList csC5).map Entry.idText = ["F#aD"] :=
  ⟨by rfl, by rfl⟩

end Atomail
